import Mathlib

/-!
Verification of the Inventory Rebalancing Engine
(`modules/processor.py` of Display-Backstock-Transfers-Actions).

The Python source is shallowly embedded: every pandas/string operation is
replaced by an explicit, executable Lean counterpart operating on lists and
characters.  Machine-level string routines (split, strip, lower, replace,
rsplit) are re-implemented structurally over `List Char` so that all
definitions evaluate inside the kernel.
-/

/- ## Character-list string primitives (Python `str` semantics) -/

/-- Strip leading and trailing whitespace, as Python `str.strip()`. -/
def trimCL (l : List Char) : List Char :=
  ((l.dropWhile Char.isWhitespace).reverse.dropWhile Char.isWhitespace).reverse

/-- Python `s.strip()`. -/
def pyStrip (s : String) : String := String.mk (trimCL s.data)

/-- Python `s.lower()` (ASCII letters). -/
def toLowerStr (s : String) : String := String.mk (s.data.map Char.toLower)

/-- Split a character list at every occurrence of `sep`, Python `str.split(sep)`:
the empty list yields `[[]]` and separators at the ends yield empty pieces. -/
def splitChar (sep : Char) (l : List Char) : List (List Char) :=
  l.foldr (fun c acc =>
    match acc with
    | cur :: rest => if c = sep then [] :: cur :: rest else (c :: cur) :: rest
    | [] => [[c]]) [[]]

/-- Python `s.split(sep)` for a one-character separator. -/
def pySplit (s : String) (sep : Char) : List String :=
  (splitChar sep s.data).map String.mk

/-- Whether `p` is a prefix of `l` (Boolean, structural). -/
def isPrefixCL : List Char → List Char → Bool
  | [], _ => true
  | _ :: _, [] => false
  | p :: ps, c :: cs => p = c && isPrefixCL ps cs

/-- Python `s.startswith(p)`. -/
def pyStartsWith (s p : String) : Bool := isPrefixCL p.data s.data

/-- Fuel-driven body of `removeAll`; the fuel bounds the number of steps so the
recursion stays structural. -/
def removeAllAux (pat : List Char) : Nat → List Char → List Char
  | _, [] => []
  | 0, l => l
  | fuel + 1, c :: rest =>
    if isPrefixCL pat (c :: rest) then removeAllAux pat fuel ((c :: rest).drop pat.length)
    else c :: removeAllAux pat fuel rest

/-- Python `s.replace(pat, "")` for a non-empty pattern: delete every
left-to-right non-overlapping occurrence of `pat`. -/
def removeAll (pat : String) (s : String) : String :=
  String.mk (removeAllAux pat.data (s.data.length + 1) s.data)

/-- Locate the LAST occurrence of the two-character separator `" x"`,
returning the pieces before and after it; `none` when the separator is absent.
This is Python `s.rsplit(' x', 1)` restricted to its two-piece success case. -/
def rsplitX : List Char → Option (List Char × List Char)
  | [] => none
  | c :: rest =>
    match rsplitX rest with
    | some (b, a) => some (c :: b, a)
    | none =>
      if c = ' ' then
        match rest with
        | 'x' :: tail => some ([], tail)
        | _ => none
      else none

/-- Decimal value of a digit list (most significant first). -/
def decimalNat (l : List Char) : Nat :=
  l.foldl (fun a c => a * 10 + (c.toNat - 48)) 0

/-- Fuel-driven decimal rendering of a natural number. -/
def natStrAux : Nat → Nat → List Char
  | 0, _ => []
  | fuel + 1, n =>
    if n < 10 then [Char.ofNat (48 + n)]
    else natStrAux fuel (n / 10) ++ [Char.ofNat (48 + n % 10)]

/-- Decimal string of a natural number. -/
def natStr (n : Nat) : String := String.mk (natStrAux (n + 1) n)

/-- Python `str(n)` for an integer (used by the f-strings of the annotator). -/
def intStr (n : Int) : String := if n < 0 then "-" ++ natStr n.natAbs else natStr n.natAbs

/-- Join a list of strings with `","`, Python `",".join`. -/
def joinComma : List String → String
  | [] => ""
  | [s] => s
  | s :: rest => s ++ "," ++ joinComma rest

/- ## Code-point lexicographic order on strings (Python `str` comparison) -/

/-- Strict lexicographic comparison of character lists by code point. -/
def ltCL : List Char → List Char → Bool
  | [], [] => false
  | [], _ :: _ => true
  | _ :: _, [] => false
  | a :: as, b :: bs => if a = b then ltCL as bs else decide (a < b)

/-- Non-strict companion of `ltCL`. -/
def leCL (a b : List Char) : Bool := !(ltCL b a)

/-- Python `a < b` on strings. -/
def strLt (a b : String) : Prop := ltCL a.data b.data = true

/-- Python `a <= b` on strings. -/
def strLe (a b : String) : Prop := leCL a.data b.data = true

instance : DecidableRel strLt := fun a b => by unfold strLt; infer_instance

instance : DecidableRel strLe := fun a b => by unfold strLe; infer_instance

/-- Python tuple comparison `(k1, b1) <= (k2, b2)`, the order used by
`DataFrame.groupby(["Key", "Branch"])` (which sorts group keys). -/
def pairLe (p q : String × String) : Prop :=
  strLt p.1 q.1 ∨ (p.1 = q.1 ∧ strLe p.2 q.2)

instance : DecidableRel pairLe := fun p q => by unfold pairLe; infer_instance

/- ## The helpers of `modules/processor.py` -/

/-- Embedding of `split_barcodes` (processor.py lines 7-14): replace each of
`;`, `|`, `/`, `\` by `,`, split on `,`, strip each piece, drop empty pieces. -/
def split_barcodes (val : String) : List String :=
  let txt := val.data.map (fun c =>
    if c = ';' ∨ c = '|' ∨ c = '/' ∨ c = '\\' then ',' else c)
  ((splitChar ',' txt).map (fun cs => String.mk (trimCL cs))).filter (fun s => s ≠ "")

/-- Embedding of `digits_only` (processor.py lines 16-17):
`re.sub(r'[^0-9]', '', s).lstrip('0')`. -/
def digits_only (s : String) : String :=
  String.mk ((s.data.filter Char.isDigit).dropWhile (fun c => c = '0'))

/-- Embedding of `normalize_key` (processor.py lines 19-21). -/
def normalize_key (bc : String) : String :=
  let d := digits_only bc
  if d ≠ "" then d else toLowerStr (pyStrip bc)

/-- Embedding of the quantity coercion
`pd.to_numeric(..., errors="coerce").fillna(0).astype(int)` (processor.py
line 66), restricted to integer numerals: an optionally negated digit string
parses to its value, anything else coerces to `0`. -/
def to_numeric_int (s : String) : Int :=
  match trimCL s.data with
  | '-' :: rest =>
    if rest ≠ [] ∧ rest.all Char.isDigit then -(decimalNat rest : Int) else 0
  | l => if l ≠ [] ∧ l.all Char.isDigit then (decimalNat l : Int) else 0

/- ## Data model -/

/-- The three tunable run parameters (processor.py lines 69-71). -/
structure Params where
  displayTarget : Int
  backstockSafety : Int
  minTransferQty : Int
deriving DecidableEq

/-- One row of the merged input table, with the column values the engine
reads (all text-typed, as `dtype=str`). -/
structure InputRecord where
  name_en : String
  branch_name : String
  barcodes : String
  available_quantity : String
  brand : String
  sale_price : String
deriving DecidableEq

/-- Quantity model, `DisplayQty` (processor.py line 75). -/
def displayQtyOf (p : Params) (sys : Int) : Int := min sys p.displayTarget

/-- Quantity model, `Backstock` (line 76). -/
def backstockOf (p : Params) (sys : Int) : Int := sys - displayQtyOf p sys

/-- Quantity model, `Need_display` (line 80). -/
def need_displayOf (p : Params) (sys : Int) : Int :=
  max (p.displayTarget - displayQtyOf p sys) 0

/-- Quantity model, `Need_safety` (line 82). -/
def need_safetyOf (p : Params) (sys : Int) : Int :=
  max (p.displayTarget + p.backstockSafety - sys) 0

/-- Quantity model, `Need` (line 84). -/
def needOf (p : Params) (sys : Int) : Int :=
  max (need_displayOf p sys) (need_safetyOf p sys)

/-- Quantity model, `Surplus` (line 87). -/
def surplusOf (p : Params) (sys : Int) : Int :=
  max (backstockOf p sys - p.backstockSafety) 0

/-- One expanded row (one record × one barcode, or the placeholder row),
processor.py lines 95-122. -/
structure ExpandedRow where
  branch : String
  productName : String
  brand : String
  salePrice : String
  barcode : String
  key : String
  systemQty : Int
  displayQty : Int
  backstock : Int
  need : Int
  surplus : Int
deriving DecidableEq

/-- Build the expanded row of record `r` carrying barcode `bc` and key `k`. -/
def baseRow (p : Params) (r : InputRecord) (bc k : String) : ExpandedRow :=
  let sys := to_numeric_int r.available_quantity
  { branch := r.branch_name
    productName := r.name_en
    brand := r.brand
    salePrice := r.sale_price
    barcode := bc
    key := k
    systemQty := sys
    displayQty := displayQtyOf p sys
    backstock := backstockOf p sys
    need := needOf p sys
    surplus := surplusOf p sys }

/-- Record expansion (processor.py lines 90-122): one row per split barcode,
or a single row with empty barcode and key when no token parses. -/
def expandRecord (p : Params) (r : InputRecord) : List ExpandedRow :=
  match split_barcodes r.barcodes with
  | [] => [baseRow p r "" ""]
  | bcs => bcs.map (fun bc => baseRow p r bc (normalize_key bc))

/-- An output row of the aggregated table (one per (Key, Branch) group),
including the annotation columns added later in the pipeline. -/
structure AggRow where
  key : String
  branch : String
  productName : String
  brand : String
  salePrice : String
  barcodes : String
  systemQty : Int
  displayQty : Int
  backstock : Int
  need : Int
  surplus : Int
  suggestedAction : String
  suggestedTransferQty : Int
  suggestedPartner : String
  skuFlag : String
  action : String
deriving DecidableEq

/-- Grouping key of an expanded row. -/
def pairOfE (e : ExpandedRow) : String × String := (e.key, e.branch)

/-- Grouping key of an aggregated row. -/
def aggPair (r : AggRow) : String × String := (r.key, r.branch)

/-- The distinct (Key, Branch) pairs in the sorted order produced by
`groupby(["Key", "Branch"])` (pandas sorts group keys by default). -/
def aggPairs (rows : List ExpandedRow) : List (String × String) :=
  List.insertionSort pairLe ((rows.map pairOfE).dedup)

/-- The `Barcodes` display cell: lexicographically sorted, de-duplicated raw
barcodes of the group joined with `,` (processor.py line 132). -/
def barcodesCell (ms : List ExpandedRow) : String :=
  joinComma (List.insertionSort strLe ((ms.map (fun e => e.barcode)).dedup))

/-- The aggregated row of one (Key, Branch) group (processor.py lines
129-139): `first` for the representative text fields, `sum` for quantities. -/
def aggRowFor (rows : List ExpandedRow) (q : String × String) : AggRow :=
  let ms := rows.filter (fun e => pairOfE e = q)
  { key := q.1
    branch := q.2
    productName := ((ms.head?).map (fun e => e.productName)).getD ""
    brand := ((ms.head?).map (fun e => e.brand)).getD ""
    salePrice := ((ms.head?).map (fun e => e.salePrice)).getD ""
    barcodes := barcodesCell ms
    systemQty := ((ms.map (fun e => e.systemQty)).sum)
    displayQty := ((ms.map (fun e => e.displayQty)).sum)
    backstock := ((ms.map (fun e => e.backstock)).sum)
    need := ((ms.map (fun e => e.need)).sum)
    surplus := ((ms.map (fun e => e.surplus)).sum)
    suggestedAction := ""
    suggestedTransferQty := 0
    suggestedPartner := ""
    skuFlag := ""
    action := "" }

/-- The aggregation step: one row per distinct (Key, Branch) pair, in sorted
pair order. -/
def aggregate (rows : List ExpandedRow) : List AggRow :=
  (aggPairs rows).map (aggRowFor rows)

/- ## Transfer matcher (processor.py lines 141-159) -/

/-- A mutable source entry of the greedy matcher. -/
structure Src where
  branch : String
  surplus : Int
deriving DecidableEq

/-- A transfer instruction `{Key, From, To, Qty}`. -/
structure Transfer where
  key : String
  fromB : String
  toB : String
  qty : Int
deriving DecidableEq

/-- Inner source loop for one destination (processor.py lines 150-159):
skip exhausted sources, move `min(surplus, need)` when it reaches the
threshold, stop once the remaining need is gone.  Returns the updated source
list and the emitted transfers. -/
def allocDest (mtq : Int) (k dB : String) : Int → List Src → List Src × List Transfer
  | _, [] => ([], [])
  | need, s :: rest =>
    if s.surplus ≤ 0 then
      let out := allocDest mtq k dB need rest
      (s :: out.1, out.2)
    else
      let qty := min s.surplus need
      if mtq ≤ qty then
        let s2 : Src := ⟨s.branch, s.surplus - qty⟩
        let t : Transfer := ⟨k, s.branch, dB, qty⟩
        if need - qty ≤ 0 then (s2 :: rest, [t])
        else
          let out := allocDest mtq k dB (need - qty) rest
          (s2 :: out.1, t :: out.2)
      else
        if need ≤ 0 then (s :: rest, [])
        else
          let out := allocDest mtq k dB need rest
          (s :: out.1, out.2)

/-- Outer destination loop (processor.py lines 148-159), threading the
mutable source list through the destinations in order. -/
def allocDests (mtq : Int) (k : String) : List Src → List (String × Int) → List Src × List Transfer
  | srcs, [] => (srcs, [])
  | srcs, d :: ds =>
    let out1 := allocDest mtq k d.1 d.2 srcs
    let out2 := allocDests mtq k out1.1 ds
    (out2.1, out1.2 ++ out2.2)

/-- The source list of one key: branches with `Surplus >= MIN_TRANSFER_QTY`
(processor.py line 146). -/
def sourcesOf (mtq : Int) (sub : List AggRow) : List Src :=
  (sub.filter (fun r => mtq ≤ r.surplus)).map (fun r => ⟨r.branch, r.surplus⟩)

/-- The destination list of one key: branches with `Need >= 1`
(processor.py line 147). -/
def destsOf (sub : List AggRow) : List (String × Int) :=
  (sub.filter (fun r => 1 ≤ r.need)).map (fun r => (r.branch, r.need))

/-- First-occurrence de-duplication, Python `pandas.Series.unique`. -/
def uniqueFirst {α : Type} [DecidableEq α] : List α → List α
  | [] => []
  | a :: l => a :: (uniqueFirst l).filter (fun x => x ≠ a)

/-- The whole matcher (processor.py lines 141-159): greedy allocation run
independently for each distinct key of the aggregated table. -/
def matchTransfers (mtq : Int) (agg : List AggRow) : List Transfer :=
  (uniqueFirst (agg.map (fun r => r.key))).flatMap (fun k =>
    let sub := agg.filter (fun r => r.key = k)
    (allocDests mtq k (sourcesOf mtq sub) (destsOf sub)).2)

/- ## Annotator (processor.py lines 164-234) -/

/-- Source-side in-place update for one transfer (processor.py lines 170-175). -/
def srcUpdate (t : Transfer) (r : AggRow) : AggRow :=
  { r with
    suggestedAction := r.suggestedAction ++ "Transfer to " ++ t.toB ++ " x" ++ intStr t.qty ++ "; "
    suggestedTransferQty := r.suggestedTransferQty + t.qty
    suggestedPartner :=
      if r.suggestedPartner ≠ "" then r.suggestedPartner ++ t.toB ++ "," else t.toB }

/-- Destination-side in-place update for one transfer (processor.py lines 177-182). -/
def dstUpdate (t : Transfer) (r : AggRow) : AggRow :=
  { r with
    suggestedAction := r.suggestedAction ++ "Receive from " ++ t.fromB ++ " x" ++ intStr t.qty ++ "; "
    suggestedTransferQty := r.suggestedTransferQty + t.qty
    suggestedPartner :=
      if r.suggestedPartner ≠ "" then r.suggestedPartner ++ t.fromB ++ "," else t.fromB }

/-- The per-row effect of one transfer: the source mask update followed by
the destination mask update (both masks are applied, in this order). -/
def stepA (t : Transfer) (r : AggRow) : AggRow :=
  let r1 := if r.key = t.key ∧ r.branch = t.fromB then srcUpdate t r else r
  if r1.key = t.key ∧ r1.branch = t.toB then dstUpdate t r1 else r1

/-- Apply one transfer to every row. -/
def applyTransfer (t : Transfer) (rows : List AggRow) : List AggRow :=
  rows.map (stepA t)

/-- Fold all transfers over the aggregated rows (processor.py lines 168-182). -/
def annotate (rows : List AggRow) (ts : List Transfer) : List AggRow :=
  ts.foldl (fun acc t => applyTransfer t acc) rows

/-- The cumulative per-row effect of a transfer list, in order. -/
def annotateF (ts : List Transfer) (r : AggRow) : AggRow :=
  ts.foldl (fun r t => stepA t r) r

/-- Python `sa.rstrip('; ')`: drop trailing `;` and space characters. -/
def rstripSemiSpace (s : String) : String :=
  String.mk ((s.data.reverse.dropWhile (fun c => c = ';' ∨ c = ' ')).reverse)

/-- Embedding of `unified_flag` (processor.py lines 185-193). -/
def unified_flag (r : AggRow) : String :=
  let sa := pyStrip r.suggestedAction
  if sa ≠ "" then rstripSemiSpace sa
  else if 0 < r.surplus ∧ r.need = 0 then "Overstock — keep or transfer"
  else if 0 < r.need ∧ r.surplus = 0 then "Need stock — consider PO"
  else "Balanced"

/-- Embedding of `action_text` (processor.py lines 198-232). -/
def action_text (r : AggRow) : String :=
  let sa := pyStrip r.suggestedAction
  if sa ≠ "" then
    let inst := pyStrip ((pySplit sa ';').headD sa)
    if pyStartsWith (toLowerStr inst) "transfer to " then
      match rsplitX inst.data with
      | some (left, qtyPart) =>
        "Prepare Transfer — Move " ++ pyStrip (String.mk qtyPart) ++ " units to " ++
          pyStrip (removeAll "Transfer to " (String.mk left))
      | none => "Prepare Transfer — " ++ inst
    else if pyStartsWith (toLowerStr inst) "receive from " then
      match rsplitX inst.data with
      | some (left, qtyPart) =>
        "Prepare Receiving — Expect " ++ pyStrip (String.mk qtyPart) ++ " units from " ++
          pyStrip (removeAll "Receive from " (String.mk left))
      | none => "Prepare Receiving — " ++ inst
    else sa
  else
    let flag := r.skuFlag
    if pyStartsWith flag "Overstock" then "Review Overstock — Consider markdown or future transfer"
    else if pyStartsWith flag "Need stock" then "Create PO — Replenish stock for this SKU"
    else if flag = "Balanced" then "No action needed"
    else "Review"

/-- Fill the `Sku Flag` column, then the `Action` column (processor.py lines
195 and 234; the flag column is complete before `Action` reads it). -/
def finalizeF (r : AggRow) : AggRow :=
  let r1 := { r with skuFlag := unified_flag r }
  { r1 with action := action_text r1 }

/-- Fill the two derived columns on every row. -/
def finalizeRows (rows : List AggRow) : List AggRow :=
  rows.map finalizeF

/-- The core pipeline on already-extracted records (processor.py lines
66-248): expand, aggregate, match, annotate. -/
def processRecords (recs : List InputRecord) (p : Params) : List AggRow × List Transfer :=
  let expanded := recs.flatMap (expandRecord p)
  let agg0 := aggregate expanded
  let ts := matchTransfers p.minTransferQty agg0
  (finalizeRows (annotate agg0 ts), ts)

/- ## Table level: merging and the required-column check -/

/-- One uploaded table: its column names and its rows as cell assignments. -/
structure Table where
  columns : List String
  rows : List (List (String × String))

/-- Cell lookup, defaulting to the empty string (`r.get(col, "")`). -/
def getCell (row : List (String × String)) (c : String) : String :=
  ((row.find? (fun kv => kv.1 = c)).map (fun kv => kv.2)).getD ""

/-- The required columns (processor.py line 60), in source order. -/
def requiredCols : List String := ["name_en", "branch_name", "barcodes", "available_quantity"]

/-- Columns of the concatenated table (`pd.concat`, union in encounter order). -/
def mergeColumns (frames : List Table) : List String :=
  uniqueFirst (frames.flatMap (fun f => f.columns))

/-- Rows of the concatenated table. -/
def mergeRows (frames : List Table) : List (List (String × String)) :=
  frames.flatMap (fun f => f.rows)

/-- The missing-column list (processor.py line 61). -/
def missingCols (cols : List String) : List String :=
  requiredCols.filter (fun c => ¬ c ∈ cols)

/-- Extract an `InputRecord` from one merged row. -/
def recordOfRow (row : List (String × String)) : InputRecord :=
  { name_en := getCell row "name_en"
    branch_name := getCell row "branch_name"
    barcodes := getCell row "barcodes"
    available_quantity := getCell row "available_quantity"
    brand := getCell row "brand"
    sale_price := getCell row "sale_price" }

/-- Embedding of `process_combined_sheet` (processor.py lines 24-248) above
the file-reading layer: an empty batch returns two empty tables, otherwise
the required-column check runs once before any row processing and a failure
carries the exact missing-column list. -/
def process_combined_sheet (frames : List Table) (p : Params) :
    Except (List String) (List AggRow × List Transfer) :=
  match frames with
  | [] => Except.ok ([], [])
  | _ =>
    let m := missingCols (mergeColumns frames)
    if m ≠ [] then Except.error m
    else Except.ok (processRecords ((mergeRows frames).map recordOfRow) p)

/- ## Reference definitions written from the specification text -/

/-- Modelled from the spec (§3 NormalizedKey), word for word: "strip every
non-digit character; if the remaining digit string is non-empty, strip leading
zeros and use it as the key; otherwise fall back to the lowercase, trimmed
original barcode string."  The emptiness test is applied to the digit string
BEFORE leading-zero stripping. -/
def normalize_key_spec (bc : String) : String :=
  let digits := bc.data.filter Char.isDigit
  if String.mk digits ≠ "" then String.mk (digits.dropWhile (fun c => c = '0'))
  else toLowerStr (pyStrip bc)

/-- The amended reference: strip non-digits AND leading zeros first; when the
result is non-empty it is the key, otherwise the trimmed lowercased original
string is. -/
def normalize_key_amended (bc : String) : String :=
  let d := String.mk ((bc.data.filter Char.isDigit).dropWhile (fun c => c = '0'))
  if d ≠ "" then d else toLowerStr (pyStrip bc)

/- ## Demonstration inputs shared by the concrete theorems -/

/-- The parameter set `displayTarget=1, backstockSafety=2, minTransferQty=1`. -/
def demoParams : Params := ⟨1, 2, 1⟩

/-- The end-to-end scenario batch: one SKU, barcode `"123"`, branch `A` with
10 on hand and branch `B` with 0 on hand. -/
def demoRecs : List InputRecord :=
  [⟨"SKU1", "A", "123", "10", "", ""⟩, ⟨"SKU1", "B", "123", "0", "", ""⟩]

/-- A batch in which the same branch reports the same barcode twice (10 and 0
on hand), so its aggregated row carries both Surplus and Need. -/
def c5Recs : List InputRecord :=
  [⟨"S", "X", "1", "10", "", ""⟩, ⟨"S", "X", "1", "0", "", ""⟩]

/-- A batch whose first-seen key order (`"2"` before `"1"`) differs from the
sorted key order. -/
def c6Recs : List InputRecord :=
  [⟨"S", "A", "2", "1", "", ""⟩, ⟨"S", "A", "1", "1", "", ""⟩]

/-- A batch in which branch `A` is the source of two transfers (to `B` and to
`C`), so its Suggested Partner field accumulates two partners. -/
def c8Recs : List InputRecord :=
  [⟨"S", "A", "1", "20", "", ""⟩, ⟨"S", "B", "1", "0", "", ""⟩, ⟨"S", "C", "1", "0", "", ""⟩]

/- ## Bookkeeping definitions used by the theorem statements -/

/-- Sum of an integer-valued field over a list. -/
def sumBy {α : Type} (f : α → Int) (l : List α) : Int := (l.map f).sum

/-- The per-record expansion multiplicity the partition invariant refers to:
the number of split barcode tokens, or 1 when there are none. -/
def multOf (r : InputRecord) : Int :=
  match split_barcodes r.barcodes with
  | [] => 1
  | bcs => (bcs.length : Int)

/-- Total quantity transferred out of branch `b` for key `k`. -/
def outSum (k b : String) (ts : List Transfer) : Int :=
  sumBy (fun t => t.qty) (ts.filter (fun t => t.key = k ∧ t.fromB = b))

/-- Total quantity transferred into branch `b` for key `k`. -/
def inSum (k b : String) (ts : List Transfer) : Int :=
  sumBy (fun t => t.qty) (ts.filter (fun t => t.key = k ∧ t.toB = b))

/-- Total quantity transferred for key `k`. -/
def keySum (k : String) (ts : List Transfer) : Int :=
  sumBy (fun t => t.qty) (ts.filter (fun t => t.key = k))

/-- Aggregated Surplus of the (key, branch) group among the output rows
(the group is unique, so this is its row's Surplus, or 0 with no row). -/
def surplusAt (k b : String) (rows : List AggRow) : Int :=
  sumBy (fun r => r.surplus) (rows.filter (fun r => r.key = k ∧ r.branch = b))

/-- Aggregated Need of the (key, branch) group among the output rows. -/
def needAt (k b : String) (rows : List AggRow) : Int :=
  sumBy (fun r => r.need) (rows.filter (fun r => r.key = k ∧ r.branch = b))

/-- Total aggregated Surplus over all branches sharing key `k`. -/
def keySurplus (k : String) (rows : List AggRow) : Int :=
  sumBy (fun r => r.surplus) (rows.filter (fun r => r.key = k))

/-- Total aggregated Need over all branches sharing key `k`. -/
def keyNeed (k : String) (rows : List AggRow) : Int :=
  sumBy (fun r => r.need) (rows.filter (fun r => r.key = k))

/-- The partner-branch list a (key, branch) row accumulates from a transfer
list, in instruction order: the destination of every instruction in which the
row is the source, and the source of every instruction in which it is the
destination (both, in that order, for a self-transfer). -/
def partnersOf (k b : String) (ts : List Transfer) : List String :=
  ts.flatMap (fun t =>
    (if t.key = k ∧ t.fromB = b then [t.toB] else []) ++
    (if t.key = k ∧ t.toB = b then [t.fromB] else []))

/-- The accumulation the annotator performs on `Suggested Partner`: the first
partner is appended bare, every later partner is appended with a trailing
comma. -/
def renderPartners (l : List String) : String :=
  l.foldl (fun acc q => if acc ≠ "" then acc ++ q ++ "," else q) ""

/-- The comma-separated join the claim describes (Python `",".join`). -/
def commaJoin (l : List String) : String := joinComma l

/-- Surplus held by the entries of a source list that carry branch `b`. -/
def srcSum (b : String) (srcs : List Src) : Int :=
  sumBy (fun s => s.surplus) (srcs.filter (fun s => s.branch = b))

/-- Total surplus of a source list. -/
def totalSrc (srcs : List Src) : Int := sumBy (fun s => s.surplus) srcs

/-- Total quantity of the transfers leaving branch `b`. -/
def outB (b : String) (ts : List Transfer) : Int :=
  sumBy (fun t => t.qty) (ts.filter (fun t => t.fromB = b))

/-- Total quantity of the transfers entering branch `b`. -/
def inB (b : String) (ts : List Transfer) : Int :=
  sumBy (fun t => t.qty) (ts.filter (fun t => t.toB = b))

/-- Total quantity of a transfer list. -/
def qtySum (ts : List Transfer) : Int := sumBy (fun t => t.qty) ts

/-- Need requested by the destination entries carrying branch `b`. -/
def dstSum (b : String) (dests : List (String × Int)) : Int :=
  sumBy (fun d => d.2) (dests.filter (fun d => d.1 = b))

/-- Total need of a destination list. -/
def totalDst (dests : List (String × Int)) : Int := sumBy (fun d => d.2) dests

/- ## Order lemmas for the lexicographic comparators -/

theorem ltCL_trans : ∀ a b c, ltCL a b = true → ltCL b c = true → ltCL a c = true
  | [], [], _ => by simp [ltCL]
  | [], _ :: _, [] => by simp [ltCL]
  | [], _ :: _, _ :: _ => by simp [ltCL]
  | _ :: _, [], _ => by simp [ltCL]
  | _ :: _, _ :: _, [] => by simp [ltCL]
  | a :: as, b :: bs, c :: cs => by
    simp only [ltCL]
    intro h1 h2
    by_cases hab : a = b <;> by_cases hbc : b = c
    · have hac : a = c := hab.trans hbc
      rw [if_pos hab] at h1; rw [if_pos hbc] at h2; rw [if_pos hac]
      exact ltCL_trans as bs cs h1 h2
    · have hac : a ≠ c := fun e => hbc (hab ▸ e)
      rw [if_neg hbc] at h2; rw [if_neg hac]
      rw [hab]; exact h2
    · have hac : a ≠ c := fun e => hab (e.trans hbc.symm)
      rw [if_neg hab] at h1; rw [if_neg hac]
      rw [← hbc]; exact h1
    · rw [if_neg hab] at h1; rw [if_neg hbc] at h2
      simp only [decide_eq_true_eq] at h1 h2
      have hlt : a < c := lt_trans h1 h2
      rw [if_neg (ne_of_lt hlt)]
      simp only [decide_eq_true_eq]
      exact hlt

theorem ltCL_asymm : ∀ a b, ltCL a b = true → ltCL b a = false
  | [], [] => by simp [ltCL]
  | [], _ :: _ => by simp [ltCL]
  | _ :: _, [] => by simp [ltCL]
  | a :: as, b :: bs => by
    simp only [ltCL]
    intro h
    by_cases hab : a = b
    · subst hab
      rw [if_pos rfl] at h
      rw [if_pos rfl]
      exact ltCL_asymm as bs h
    · have hba : b ≠ a := fun e => hab e.symm
      rw [if_neg hab] at h
      simp only [decide_eq_true_eq] at h
      rw [if_neg hba]
      simp only [decide_eq_false_iff_not]
      exact lt_asymm h

theorem ltCL_total : ∀ a b, a ≠ b → ltCL a b = true ∨ ltCL b a = true
  | [], [] => fun h => absurd rfl h
  | [], _ :: _ => fun _ => Or.inl (by simp [ltCL])
  | _ :: _, [] => fun _ => Or.inr (by simp [ltCL])
  | a :: as, b :: bs => fun h => by
    by_cases hab : a = b
    · subst hab
      have hne : as ≠ bs := fun e => h (by rw [e])
      rcases ltCL_total as bs hne with h1 | h1
      · exact Or.inl (by simp [ltCL, h1])
      · exact Or.inr (by simp [ltCL, h1])
    · have hba : b ≠ a := fun e => hab e.symm
      rcases lt_or_gt_of_ne hab with hv | hv
      · refine Or.inl ?_
        simp only [ltCL, if_neg hab, decide_eq_true_eq]
        exact hv
      · refine Or.inr ?_
        simp only [ltCL, if_neg hba, decide_eq_true_eq]
        exact hv

theorem str_data_ne {p q : String} (h : p ≠ q) : p.data ≠ q.data := by
  intro e
  cases p with
  | mk dp =>
    cases q with
    | mk dq =>
      simp only at e
      exact h (by rw [e])

instance : IsTotal (String × String) pairLe where
  total p q := by
    unfold pairLe strLt strLe leCL
    by_cases h : p.1 = q.1
    · by_cases h2 : ltCL q.2.data p.2.data = true
      · right; right
        refine ⟨h.symm, ?_⟩
        have := ltCL_asymm _ _ h2
        simp [this]
      · left; right
        refine ⟨h, ?_⟩
        simp only [Bool.not_eq_true] at h2
        simp [h2]
    · rcases ltCL_total _ _ (str_data_ne h) with h1 | h1
      · exact Or.inl (Or.inl h1)
      · exact Or.inr (Or.inl h1)

instance : IsTrans (String × String) pairLe where
  trans p q r h1 h2 := by
    unfold pairLe strLt strLe leCL at *
    rcases h1 with h1 | ⟨e1, l1⟩
    · rcases h2 with h2 | ⟨e2, l2⟩
      · exact Or.inl (ltCL_trans _ _ _ h1 h2)
      · exact Or.inl (e2 ▸ h1)
    · rcases h2 with h2 | ⟨e2, l2⟩
      · exact Or.inl (e1 ▸ h2)
      · refine Or.inr ⟨e1.trans e2, ?_⟩
        simp only [Bool.not_eq_true', Bool.not_eq_true] at l1 l2 ⊢
        by_cases hc : ltCL r.2.data p.2.data = true
        · exfalso
          by_cases hpq : p.2.data = q.2.data
          · rw [hpq] at hc; rw [hc] at l2; cases l2
          · rcases ltCL_total _ _ hpq with hx | hx
            · have := ltCL_trans _ _ _ hc hx
              rw [this] at l2; cases l2
            · rw [hx] at l1; cases l1
        · simp only [Bool.not_eq_true] at hc; exact hc

/- ## C7 -/

/-- Claim C7 counterexample: on the barcode `"0"` the code keeps the key
`"0"` (the digit string is stripped to empty BEFORE the emptiness test, so the
fallback runs), while the claim's reference definition — emptiness tested
before zero-stripping — yields `""`. -/
theorem C7_counterexample :
    normalize_key "0" = "0" ∧ normalize_key_spec "0" = "" ∧ ("0" : String) ≠ "" := by
  refine ⟨by decide, by decide, by decide⟩

/-- Claim C7, amended: `normalize_key` strips every non-digit character and
the leading zeros; if the result is non-empty it is the key, otherwise the key
is the trimmed, lowercased original string. -/
theorem C7_normalize_key_amended (bc : String) :
    normalize_key bc = normalize_key_amended bc := rfl

/- ## C10 -/

/-- Claim C10: the numeric coercion keeps a negative `available_quantity`
(e.g. `"-5"` parses to `-5`, not `0`), and `DisplayQty = min(SystemQty,
displayTarget)` is then negative as well; nevertheless for EVERY integer
`SystemQty` the code's `Backstock = SystemQty - DisplayQty` equals
`max(SystemQty - displayTarget, 0)` and is non-negative. -/
theorem C10_negative_quantities :
    to_numeric_int "-5" = -5 ∧
    displayQtyOf demoParams (to_numeric_int "-5") = -5 ∧
    (∀ (p : Params) (sys : Int),
      backstockOf p sys = max (sys - p.displayTarget) 0 ∧ 0 ≤ backstockOf p sys) := by
  refine ⟨by decide, by decide, fun p sys => ?_⟩
  unfold backstockOf displayQtyOf
  constructor
  · rcases le_total sys p.displayTarget with h | h
    · rw [min_eq_left h, max_eq_right (by omega)]
      omega
    · rw [min_eq_right h, max_eq_left (by omega)]
  · rcases le_total sys p.displayTarget with h | h
    · rw [min_eq_left h]; omega
    · rw [min_eq_right h]; omega

/- ## C2 -/

/-- Claim C2: the end-to-end scenario.  With barcode `"123"` at branches `A`
(10 on hand) and `B` (0 on hand) under `displayTarget=1, backstockSafety=2,
minTransferQty=1`, the engine outputs A: DisplayQty 1, Backstock 9, Need 0,
Surplus 7; B: DisplayQty 0, Backstock 0, Need 3, Surplus 0; exactly one
transfer `{key "123", from A, to B, qty 3}`; and the two Action strings. -/
theorem C2_end_to_end :
    (processRecords demoRecs demoParams).2 = [⟨"123", "A", "B", 3⟩] ∧
    (processRecords demoRecs demoParams).1.map
        (fun r => (r.branch, r.displayQty, r.backstock, r.need, r.surplus)) =
      [("A", 1, 9, 0, 7), ("B", 0, 0, 3, 0)] ∧
    (processRecords demoRecs demoParams).1.map (fun r => r.action) =
      ["Prepare Transfer — Move 3 units to B", "Prepare Receiving — Expect 3 units from A"] := by
  refine ⟨by decide, by decide, by decide⟩

/- ## C9 -/

/-- Claim C9: with at least one input table, `process_combined_sheet` fails
with exactly the missing required-column list if and only if some required
column is absent from the merged table; on failure no result is produced, and
otherwise processing proceeds on the merged rows. -/
theorem C9_missing_columns (frames : List Table) (p : Params) (h : frames ≠ []) :
    (missingCols (mergeColumns frames) ≠ [] →
      process_combined_sheet frames p = Except.error (missingCols (mergeColumns frames))) ∧
    (missingCols (mergeColumns frames) = [] →
      process_combined_sheet frames p =
        Except.ok (processRecords ((mergeRows frames).map recordOfRow) p)) := by
  cases frames with
  | nil => exact absurd rfl h
  | cons f fs =>
    constructor
    · intro hm
      simp only [process_combined_sheet, if_pos hm]
    · intro hm
      simp only [process_combined_sheet, hm]
      simp

/-- Witness for C9 at a concrete input: a single table containing only the
`name_en` column is rejected with exactly the other three required names. -/
theorem C9_witness :
    ([(⟨["name_en"], []⟩ : Table)] ≠ ([] : List Table)) ∧
    missingCols (mergeColumns [(⟨["name_en"], []⟩ : Table)]) =
      ["branch_name", "barcodes", "available_quantity"] ∧
    process_combined_sheet [(⟨["name_en"], []⟩ : Table)] demoParams =
      Except.error (missingCols (mergeColumns [(⟨["name_en"], []⟩ : Table)])) :=
  ⟨List.cons_ne_nil _ _, by decide,
    (C9_missing_columns [(⟨["name_en"], []⟩ : Table)] demoParams
      (List.cons_ne_nil _ _)).1 (by decide)⟩

/- ## Generic summation lemmas -/

theorem sumBy_append {α : Type} (f : α → Int) (l1 l2 : List α) :
    sumBy f (l1 ++ l2) = sumBy f l1 + sumBy f l2 := by
  simp [sumBy]

theorem sumBy_cons {α : Type} (f : α → Int) (a : α) (l : List α) :
    sumBy f (a :: l) = f a + sumBy f l := by
  simp [sumBy]

theorem sumBy_nonneg {α : Type} (f : α → Int) :
    ∀ l : List α, (∀ a ∈ l, 0 ≤ f a) → 0 ≤ sumBy f l
  | [], _ => by simp [sumBy]
  | a :: l, h => by
    rw [sumBy_cons]
    have h1 := h a (List.mem_cons_self a l)
    have h2 := sumBy_nonneg f l (fun x hx => h x (List.mem_cons_of_mem a hx))
    omega

theorem sumBy_eq_zero {α : Type} (f : α → Int) :
    ∀ l : List α, (∀ a ∈ l, f a = 0) → sumBy f l = 0
  | [], _ => by simp [sumBy]
  | a :: l, h => by
    rw [sumBy_cons, h a (List.mem_cons_self a l),
      sumBy_eq_zero f l (fun x hx => h x (List.mem_cons_of_mem a hx))]
    omega

theorem sumBy_congr {α : Type} {g h : α → Int} :
    ∀ l : List α, (∀ a ∈ l, g a = h a) → sumBy g l = sumBy h l
  | [], _ => rfl
  | a :: l, he => by
    rw [sumBy_cons, sumBy_cons, he a (List.mem_cons_self a l),
      sumBy_congr l (fun x hx => he x (List.mem_cons_of_mem a hx))]

theorem sumBy_add {α : Type} (g h : α → Int) :
    ∀ l : List α, sumBy (fun a => g a + h a) l = sumBy g l + sumBy h l
  | [] => by simp [sumBy]
  | a :: l => by
    rw [sumBy_cons, sumBy_cons, sumBy_cons, sumBy_add g h l]
    ring

theorem sumBy_map {α β : Type} (f : β → Int) (g : α → β) (l : List α) :
    sumBy f (l.map g) = sumBy (fun a => f (g a)) l := by
  simp [sumBy, List.map_map]; rfl

theorem sumBy_const {α : Type} (c : Int) :
    ∀ l : List α, sumBy (fun _ => c) l = (l.length : Int) * c
  | [] => by simp [sumBy]
  | a :: l => by
    rw [sumBy_cons, sumBy_const c l]
    simp only [List.length_cons]
    push_cast
    ring

theorem sumBy_flatMap {α β : Type} (f : β → Int) (g : α → List β) :
    ∀ l : List α, sumBy f (l.flatMap g) = sumBy (fun a => sumBy f (g a)) l
  | [] => by simp [sumBy]
  | a :: l => by
    rw [List.flatMap_cons, sumBy_append, sumBy_cons, sumBy_flatMap f g l]

theorem sumBy_if_single {β : Type} [DecidableEq β] (c : Int) :
    ∀ (pairs : List β) (x : β), pairs.Nodup → x ∈ pairs →
      sumBy (fun q => if x = q then c else 0) pairs = c
  | [], x, _, hx => absurd hx (List.not_mem_nil x)
  | q :: pairs, x, hnd, hx => by
    rcases List.mem_cons.mp hx with he | hm
    · subst he
      have hnotin : x ∉ pairs := (List.nodup_cons.mp hnd).1
      rw [sumBy_cons, if_pos rfl,
        sumBy_eq_zero _ pairs (fun y hy => if_neg (by intro e; subst e; exact hnotin hy))]
      ring
    · have hne : x ≠ q := by
        intro e; subst e; exact (List.nodup_cons.mp hnd).1 hm
      rw [sumBy_cons, if_neg hne,
        sumBy_if_single c pairs x (List.nodup_cons.mp hnd).2 hm]
      ring

theorem sum_fiber {α β : Type} [DecidableEq β] (f : α → Int) (keyf : α → β) :
    ∀ (l : List α) (pairs : List β), pairs.Nodup → (∀ a ∈ l, keyf a ∈ pairs) →
      sumBy (fun q => sumBy f (l.filter (fun a => keyf a = q))) pairs = sumBy f l
  | [], pairs, _, _ => by simp [sumBy]
  | a :: l, pairs, hnd, hcov => by
    have hmem : keyf a ∈ pairs := hcov a (List.mem_cons_self a l)
    have hcov2 : ∀ x ∈ l, keyf x ∈ pairs := fun x hx => hcov x (List.mem_cons_of_mem a hx)
    have hsplit : ∀ q ∈ pairs, sumBy f ((a :: l).filter (fun x => keyf x = q)) =
        (if keyf a = q then f a else 0) + sumBy f (l.filter (fun x => keyf x = q)) := by
      intro q _
      by_cases h : keyf a = q
      · simp [List.filter_cons, h, sumBy_cons]
      · simp [List.filter_cons, h]
    rw [sumBy_congr pairs hsplit, sumBy_add,
      sumBy_if_single (f a) pairs (keyf a) hnd hmem,
      sum_fiber f keyf l pairs hnd hcov2, sumBy_cons]

/- ## uniqueFirst and aggPairs structure -/

theorem mem_uniqueFirst {α : Type} [DecidableEq α] (x : α) :
    ∀ l : List α, x ∈ uniqueFirst l ↔ x ∈ l
  | [] => Iff.rfl
  | a :: l => by
    simp only [uniqueFirst, List.mem_cons, List.mem_filter]
    constructor
    · rintro (rfl | ⟨hm, _⟩)
      · exact Or.inl rfl
      · exact Or.inr ((mem_uniqueFirst x l).mp hm)
    · rintro (rfl | hm)
      · exact Or.inl rfl
      · by_cases he : x = a
        · exact Or.inl he
        · exact Or.inr ⟨(mem_uniqueFirst x l).mpr hm, by simpa using he⟩

theorem nodup_uniqueFirst {α : Type} [DecidableEq α] : ∀ l : List α, (uniqueFirst l).Nodup
  | [] => List.nodup_nil
  | a :: l => by
    simp only [uniqueFirst]
    refine List.Nodup.cons ?_ ((nodup_uniqueFirst l).filter _)
    intro hmem
    have h2 := (List.mem_filter.mp hmem).2
    simp at h2

theorem nodup_aggPairs (rows : List ExpandedRow) : (aggPairs rows).Nodup := by
  unfold aggPairs
  exact ((List.perm_insertionSort pairLe _).nodup_iff).mpr (List.nodup_dedup _)

theorem mem_aggPairs {rows : List ExpandedRow} {e : ExpandedRow} (he : e ∈ rows) :
    pairOfE e ∈ aggPairs rows := by
  unfold aggPairs
  rw [List.mem_insertionSort, List.mem_dedup]
  exact List.mem_map_of_mem _ he

/- ## Field preservation through annotation and finalization -/

theorem stepA_quants (t : Transfer) (r : AggRow) :
    (stepA t r).key = r.key ∧ (stepA t r).branch = r.branch ∧
    (stepA t r).systemQty = r.systemQty ∧ (stepA t r).displayQty = r.displayQty ∧
    (stepA t r).backstock = r.backstock ∧ (stepA t r).need = r.need ∧
    (stepA t r).surplus = r.surplus := by
  unfold stepA
  by_cases h1 : r.key = t.key ∧ r.branch = t.fromB
  · rw [if_pos h1]
    by_cases h2 : (srcUpdate t r).key = t.key ∧ (srcUpdate t r).branch = t.toB
    · rw [if_pos h2]; simp [srcUpdate, dstUpdate]
    · rw [if_neg h2]; simp [srcUpdate]
  · rw [if_neg h1]
    by_cases h2 : r.key = t.key ∧ r.branch = t.toB
    · rw [if_pos h2]; simp [dstUpdate]
    · rw [if_neg h2]; simp

theorem annotateF_quants : ∀ (ts : List Transfer) (r : AggRow),
    (annotateF ts r).key = r.key ∧ (annotateF ts r).branch = r.branch ∧
    (annotateF ts r).systemQty = r.systemQty ∧ (annotateF ts r).displayQty = r.displayQty ∧
    (annotateF ts r).backstock = r.backstock ∧ (annotateF ts r).need = r.need ∧
    (annotateF ts r).surplus = r.surplus
  | [], r => ⟨rfl, rfl, rfl, rfl, rfl, rfl, rfl⟩
  | t :: ts, r => by
    have h1 := stepA_quants t r
    have h2 := annotateF_quants ts (stepA t r)
    exact ⟨h2.1.trans h1.1, h2.2.1.trans h1.2.1, h2.2.2.1.trans h1.2.2.1,
      h2.2.2.2.1.trans h1.2.2.2.1, h2.2.2.2.2.1.trans h1.2.2.2.2.1,
      h2.2.2.2.2.2.1.trans h1.2.2.2.2.2.1, h2.2.2.2.2.2.2.trans h1.2.2.2.2.2.2⟩

theorem finalizeF_quants (r : AggRow) :
    (finalizeF r).key = r.key ∧ (finalizeF r).branch = r.branch ∧
    (finalizeF r).systemQty = r.systemQty ∧ (finalizeF r).displayQty = r.displayQty ∧
    (finalizeF r).backstock = r.backstock ∧ (finalizeF r).need = r.need ∧
    (finalizeF r).surplus = r.surplus := by
  simp [finalizeF]

theorem annotate_eq_map : ∀ (ts : List Transfer) (rows : List AggRow),
    annotate rows ts = rows.map (annotateF ts)
  | [], rows => by
    simp only [annotate, List.foldl_nil]
    exact (List.map_id' rows).symm
  | t :: ts, rows => by
    have h := annotate_eq_map ts (applyTransfer t rows)
    simp only [annotate, List.foldl_cons] at h ⊢
    rw [h, applyTransfer, List.map_map]
    rfl

theorem processRecords_fst (recs : List InputRecord) (p : Params) :
    (processRecords recs p).1 =
      (aggregate (recs.flatMap (expandRecord p))).map
        (fun r => finalizeF (annotateF
          (matchTransfers p.minTransferQty (aggregate (recs.flatMap (expandRecord p)))) r)) := by
  simp only [processRecords, finalizeRows]
  rw [annotate_eq_map, List.map_map]
  rfl

theorem processRecords_snd (recs : List InputRecord) (p : Params) :
    (processRecords recs p).2 =
      matchTransfers p.minTransferQty (aggregate (recs.flatMap (expandRecord p))) := rfl

theorem sumBy_map_pres {α : Type} (g : α → Int) (F : α → α) (hg : ∀ r, g (F r) = g r) :
    ∀ rows : List α, sumBy g (rows.map F) = sumBy g rows
  | [] => rfl
  | r :: rows => by
    rw [List.map_cons, sumBy_cons, sumBy_cons, hg, sumBy_map_pres g F hg rows]

/- ## Aggregation sums -/

theorem aggRowFor_systemQty (rows : List ExpandedRow) (q : String × String) :
    (aggRowFor rows q).systemQty =
      sumBy (fun e => e.systemQty) (rows.filter (fun e => pairOfE e = q)) := rfl

theorem sumBy_sys_aggregate (rows : List ExpandedRow) :
    sumBy (fun r => r.systemQty) (aggregate rows) = sumBy (fun e => e.systemQty) rows := by
  unfold aggregate
  rw [sumBy_map]
  have h1 : ∀ q ∈ aggPairs rows, (aggRowFor rows q).systemQty
      = sumBy (fun e => e.systemQty) (rows.filter (fun e => pairOfE e = q)) :=
    fun q _ => aggRowFor_systemQty rows q
  rw [sumBy_congr (aggPairs rows) h1]
  exact sum_fiber _ pairOfE rows (aggPairs rows) (nodup_aggPairs rows)
    (fun a ha => mem_aggPairs ha)

theorem sumBy_sys_expand (p : Params) (r : InputRecord) :
    sumBy (fun e => e.systemQty) (expandRecord p r) =
      to_numeric_int r.available_quantity * multOf r := by
  rcases h : split_barcodes r.barcodes with _ | ⟨b, bs⟩
  · simp [expandRecord, multOf, h, sumBy, baseRow]
  · simp only [expandRecord, multOf, h]
    rw [sumBy_map]
    have h2 : ∀ x ∈ b :: bs,
        (baseRow p r x (normalize_key x)).systemQty = to_numeric_int r.available_quantity :=
      fun x _ => rfl
    rw [sumBy_congr _ h2, sumBy_const]
    ring

/- ## C1 -/

/-- Claim C1: the aggregation partitions the expanded rows exactly — the sum
of `System Qty` over all output rows equals, over the input records, the sum
of the coerced on-hand quantity times the number of split barcode tokens (1
when there are none). -/
theorem C1_partition (recs : List InputRecord) (p : Params) :
    sumBy (fun r => r.systemQty) (processRecords recs p).1 =
      sumBy (fun r => to_numeric_int r.available_quantity * multOf r) recs := by
  rw [processRecords_fst]
  rw [sumBy_map_pres _ _ (fun r =>
    ((finalizeF_quants _).2.2.1).trans ((annotateF_quants _ r).2.2.1))]
  rw [sumBy_sys_aggregate, sumBy_flatMap]
  exact sumBy_congr _ (fun r _ => sumBy_sys_expand p r)

/- ## Cons lemmas for the matcher bookkeeping sums -/

theorem srcSum_cons (b : String) (s : Src) (l : List Src) :
    srcSum b (s :: l) = (if s.branch = b then s.surplus else 0) + srcSum b l := by
  by_cases h : s.branch = b <;> simp [srcSum, List.filter_cons, h, sumBy_cons]

theorem outB_cons (b : String) (t : Transfer) (ts : List Transfer) :
    outB b (t :: ts) = (if t.fromB = b then t.qty else 0) + outB b ts := by
  by_cases h : t.fromB = b <;> simp [outB, List.filter_cons, h, sumBy_cons]

theorem inB_cons (b : String) (t : Transfer) (ts : List Transfer) :
    inB b (t :: ts) = (if t.toB = b then t.qty else 0) + inB b ts := by
  by_cases h : t.toB = b <;> simp [inB, List.filter_cons, h, sumBy_cons]

theorem dstSum_cons (b : String) (d : String × Int) (l : List (String × Int)) :
    dstSum b (d :: l) = (if d.1 = b then d.2 else 0) + dstSum b l := by
  by_cases h : d.1 = b <;> simp [dstSum, List.filter_cons, h, sumBy_cons]

theorem outB_append (b : String) (ts1 ts2 : List Transfer) :
    outB b (ts1 ++ ts2) = outB b ts1 + outB b ts2 := by
  simp [outB, List.filter_append, sumBy_append]

theorem inB_append (b : String) (ts1 ts2 : List Transfer) :
    inB b (ts1 ++ ts2) = inB b ts1 + inB b ts2 := by
  simp [inB, List.filter_append, sumBy_append]

theorem qtySum_append (ts1 ts2 : List Transfer) :
    qtySum (ts1 ++ ts2) = qtySum ts1 + qtySum ts2 := by
  simp [qtySum, sumBy_append]

theorem totalSrc_cons (s : Src) (l : List Src) :
    totalSrc (s :: l) = s.surplus + totalSrc l := by
  simp [totalSrc, sumBy_cons]

theorem qtySum_cons (t : Transfer) (ts : List Transfer) :
    qtySum (t :: ts) = t.qty + qtySum ts := by
  simp [qtySum, sumBy_cons]

theorem totalDst_cons (d : String × Int) (l : List (String × Int)) :
    totalDst (d :: l) = d.2 + totalDst l := by
  simp [totalDst, sumBy_cons]

theorem qtySum_nil : qtySum ([] : List Transfer) = 0 := rfl

theorem outB_nil (b : String) : outB b ([] : List Transfer) = 0 := rfl

theorem inB_nil (b : String) : inB b ([] : List Transfer) = 0 := rfl

/- ## Inner-loop (allocDest) invariants -/

theorem allocDest_key (mtq : Int) (k dB : String) :
    ∀ (need : Int) (srcs : List Src), ∀ t ∈ (allocDest mtq k dB need srcs).2,
      t.key = k ∧ t.toB = dB
  | need, [] => by simp [allocDest]
  | need, s :: rest => by
    have ih := fun n => allocDest_key mtq k dB n rest
    simp only [allocDest]
    split_ifs with h1 h2 h3 h4
    · exact ih need
    · intro t ht
      rcases List.mem_singleton.mp ht with rfl
      exact ⟨rfl, rfl⟩
    · intro t ht
      rcases List.mem_cons.mp ht with rfl | hm
      · exact ⟨rfl, rfl⟩
      · exact ih _ t hm
    · simp
    · exact ih need

theorem allocDest_mem (mtq : Int) (k dB : String) (hm : 0 ≤ mtq) :
    ∀ (need : Int) (srcs : List Src), ∀ t ∈ (allocDest mtq k dB need srcs).2,
      mtq ≤ t.qty ∧ t.qty ≤ need ∧ t.fromB ∈ srcs.map (fun s => s.branch)
  | need, [] => by simp [allocDest]
  | need, s :: rest => by
    have ih := fun n => allocDest_mem mtq k dB hm n rest
    simp only [allocDest]
    split_ifs with h1 h2 h3 h4
    · intro t ht
      have h := ih need t ht
      exact ⟨h.1, h.2.1, List.mem_cons_of_mem _ h.2.2⟩
    · intro t ht
      rcases List.mem_singleton.mp ht with rfl
      refine ⟨h2, min_le_right _ _, ?_⟩
      simp
    · intro t ht
      rcases List.mem_cons.mp ht with rfl | hmem
      · refine ⟨h2, min_le_right _ _, ?_⟩
        simp
      · have h := ih _ t hmem
        refine ⟨h.1, ?_, List.mem_cons_of_mem _ h.2.2⟩
        have : mtq ≤ min s.surplus need := h2
        omega
    · simp
    · intro t ht
      have h := ih need t ht
      exact ⟨h.1, h.2.1, List.mem_cons_of_mem _ h.2.2⟩

theorem allocDest_qtySum_le (mtq : Int) (k dB : String) :
    ∀ (need : Int) (srcs : List Src), 0 ≤ need →
      qtySum (allocDest mtq k dB need srcs).2 ≤ need
  | need, [], h => by simp [allocDest, qtySum, sumBy]; exact h
  | need, s :: rest, h => by
    have ih := fun n => allocDest_qtySum_le mtq k dB n rest
    simp only [allocDest]
    split_ifs with h1 h2 h3 h4
    · exact ih need h
    · dsimp only
      rw [qtySum_cons, qtySum_nil]
      dsimp only
      have hmin : min s.surplus need ≤ need := min_le_right _ _
      omega
    · dsimp only
      have hrec := ih (need - min s.surplus need) (by omega)
      rw [qtySum_cons]
      dsimp only
      have hmin : min s.surplus need ≤ need := min_le_right _ _
      omega
    · simp [qtySum, sumBy]; exact h
    · exact ih need h

theorem allocDest_nonneg (mtq : Int) (k dB : String) :
    ∀ (need : Int) (srcs : List Src), (∀ s ∈ srcs, 0 ≤ s.surplus) →
      ∀ s ∈ (allocDest mtq k dB need srcs).1, 0 ≤ s.surplus
  | need, [], _ => by simp [allocDest]
  | need, s :: rest, h => by
    have hrest : ∀ x ∈ rest, 0 ≤ x.surplus := fun x hx => h x (List.mem_cons_of_mem s hx)
    have hs : 0 ≤ s.surplus := h s (List.mem_cons_self s rest)
    have ih := fun n => allocDest_nonneg mtq k dB n rest hrest
    simp only [allocDest]
    split_ifs with h1 h2 h3 h4
    · intro x hx
      rcases List.mem_cons.mp hx with rfl | hmem
      · exact hs
      · exact ih need x hmem
    · intro x hx
      rcases List.mem_cons.mp hx with rfl | hmem
      · have : min s.surplus need ≤ s.surplus := min_le_left _ _
        simp only []
        omega
      · exact hrest x hmem
    · intro x hx
      rcases List.mem_cons.mp hx with rfl | hmem
      · have : min s.surplus need ≤ s.surplus := min_le_left _ _
        simp only []
        omega
      · exact ih _ x hmem
    · intro x hx
      rcases List.mem_cons.mp hx with rfl | hmem
      · exact hs
      · exact hrest x hmem
    · intro x hx
      rcases List.mem_cons.mp hx with rfl | hmem
      · exact hs
      · exact ih need x hmem

theorem allocDest_branches (mtq : Int) (k dB : String) :
    ∀ (need : Int) (srcs : List Src),
      (allocDest mtq k dB need srcs).1.map (fun s => s.branch) =
        srcs.map (fun s => s.branch)
  | need, [] => by simp [allocDest]
  | need, s :: rest => by
    have ih := fun n => allocDest_branches mtq k dB n rest
    simp only [allocDest]
    split_ifs with h1 h2 h3 h4
    · simp only [List.map_cons, ih need]
    · simp
    · simp only [List.map_cons, ih (need - min s.surplus need)]
    · simp
    · simp only [List.map_cons, ih need]

theorem allocDest_out (mtq : Int) (k dB b : String) :
    ∀ (need : Int) (srcs : List Src),
      outB b (allocDest mtq k dB need srcs).2 =
        srcSum b srcs - srcSum b (allocDest mtq k dB need srcs).1
  | need, [] => by simp [allocDest, outB, srcSum, sumBy]
  | need, s :: rest => by
    have ih := fun n => allocDest_out mtq k dB b n rest
    simp only [allocDest]
    split_ifs with h1 h2 h3 h4
    · dsimp only
      rw [srcSum_cons, srcSum_cons, ih need]
      omega
    · dsimp only
      rw [srcSum_cons, srcSum_cons, outB_cons, outB_nil]
      dsimp only
      by_cases hb : s.branch = b <;> simp only [hb, if_pos, if_neg, ite_true, ite_false] <;> omega
    · dsimp only
      rw [srcSum_cons, srcSum_cons, outB_cons, ih (need - min s.surplus need)]
      dsimp only
      by_cases hb : s.branch = b <;> simp only [hb, if_pos, if_neg, ite_true, ite_false] <;> omega
    · dsimp only
      rw [outB_nil, srcSum_cons]
      omega
    · dsimp only
      rw [srcSum_cons, srcSum_cons, ih need]
      omega

theorem allocDest_total (mtq : Int) (k dB : String) :
    ∀ (need : Int) (srcs : List Src),
      qtySum (allocDest mtq k dB need srcs).2 =
        totalSrc srcs - totalSrc (allocDest mtq k dB need srcs).1
  | need, [] => by simp [allocDest, qtySum, totalSrc, sumBy]
  | need, s :: rest => by
    have ih := fun n => allocDest_total mtq k dB n rest
    simp only [allocDest]
    split_ifs with h1 h2 h3 h4
    · dsimp only
      rw [totalSrc_cons, totalSrc_cons, ih need]
      omega
    · dsimp only
      rw [totalSrc_cons, totalSrc_cons, qtySum_cons, qtySum_nil]
      dsimp only
      omega
    · dsimp only
      rw [totalSrc_cons, totalSrc_cons, qtySum_cons, ih (need - min s.surplus need)]
      dsimp only
      omega
    · dsimp only
      rw [qtySum_nil, totalSrc_cons]
      omega
    · dsimp only
      rw [totalSrc_cons, totalSrc_cons, ih need]
      omega

/- ## Outer-loop (allocDests) invariants -/

theorem allocDests_key (mtq : Int) (k : String) :
    ∀ (srcs : List Src) (dests : List (String × Int)),
      ∀ t ∈ (allocDests mtq k srcs dests).2, t.key = k
  | srcs, [] => by simp [allocDests]
  | srcs, d :: ds => by
    simp only [allocDests]
    intro t ht
    try dsimp only at ht
    rcases List.mem_append.mp ht with h | h
    · exact (allocDest_key mtq k d.1 d.2 srcs t h).1
    · exact allocDests_key mtq k _ ds t h

theorem allocDests_branches (mtq : Int) (k : String) :
    ∀ (srcs : List Src) (dests : List (String × Int)),
      (allocDests mtq k srcs dests).1.map (fun s => s.branch) =
        srcs.map (fun s => s.branch)
  | srcs, [] => by simp [allocDests]
  | srcs, d :: ds => by
    simp only [allocDests]
    try dsimp only
    rw [allocDests_branches mtq k _ ds, allocDest_branches]

theorem allocDests_mem (mtq : Int) (k : String) (hm : 0 ≤ mtq) :
    ∀ (srcs : List Src) (dests : List (String × Int)),
      ∀ t ∈ (allocDests mtq k srcs dests).2,
        mtq ≤ t.qty ∧ t.fromB ∈ srcs.map (fun s => s.branch) ∧
          ∃ d ∈ dests, t.toB = d.1 ∧ t.qty ≤ d.2
  | srcs, [] => by simp [allocDests]
  | srcs, d :: ds => by
    simp only [allocDests]
    intro t ht
    try dsimp only at ht
    rcases List.mem_append.mp ht with h | h
    · have h1 := allocDest_mem mtq k d.1 hm d.2 srcs t h
      have h2 := allocDest_key mtq k d.1 d.2 srcs t h
      exact ⟨h1.1, h1.2.2, ⟨d, List.mem_cons_self d ds, h2.2, h1.2.1⟩⟩
    · have h1 := allocDests_mem mtq k hm _ ds t h
      refine ⟨h1.1, ?_, ?_⟩
      · rw [← allocDest_branches mtq k d.1 d.2 srcs]
        exact h1.2.1
      · rcases h1.2.2 with ⟨d2, hd2, he⟩
        exact ⟨d2, List.mem_cons_of_mem d hd2, he⟩

theorem allocDests_out (mtq : Int) (k b : String) :
    ∀ (srcs : List Src) (dests : List (String × Int)),
      outB b (allocDests mtq k srcs dests).2 =
        srcSum b srcs - srcSum b (allocDests mtq k srcs dests).1
  | srcs, [] => by simp [allocDests, outB_nil]
  | srcs, d :: ds => by
    simp only [allocDests]
    try dsimp only
    rw [outB_append, allocDest_out, allocDests_out mtq k b _ ds]
    omega

theorem allocDests_nonneg (mtq : Int) (k : String) :
    ∀ (srcs : List Src) (dests : List (String × Int)),
      (∀ s ∈ srcs, 0 ≤ s.surplus) →
      ∀ s ∈ (allocDests mtq k srcs dests).1, 0 ≤ s.surplus
  | srcs, [], h => by simpa [allocDests] using h
  | srcs, d :: ds, h => by
    simp only [allocDests]
    try dsimp only
    exact allocDests_nonneg mtq k _ ds (allocDest_nonneg mtq k d.1 d.2 srcs h)

theorem allocDests_in (mtq : Int) (k b : String) :
    ∀ (srcs : List Src) (dests : List (String × Int)),
      (∀ d ∈ dests, 0 ≤ d.2) →
      inB b (allocDests mtq k srcs dests).2 ≤ dstSum b dests
  | srcs, [], _ => by simp [allocDests, inB_nil, dstSum, sumBy]
  | srcs, d :: ds, h => by
    simp only [allocDests]
    try dsimp only
    rw [inB_append, dstSum_cons]
    have hrec := allocDests_in mtq k b (allocDest mtq k d.1 d.2 srcs).1 ds
      (fun x hx => h x (List.mem_cons_of_mem d hx))
    have hts1 : inB b (allocDest mtq k d.1 d.2 srcs).2 ≤ (if d.1 = b then d.2 else 0) := by
      by_cases hb : d.1 = b
      · rw [if_pos hb]
        have hall : ∀ t ∈ (allocDest mtq k d.1 d.2 srcs).2, t.toB = b :=
          fun t ht => ((allocDest_key mtq k d.1 d.2 srcs t ht).2).trans hb
        have hfe : (allocDest mtq k d.1 d.2 srcs).2.filter (fun t => t.toB = b) =
            (allocDest mtq k d.1 d.2 srcs).2 :=
          List.filter_eq_self.mpr (fun t ht => by simp [hall t ht])
        show sumBy (fun t => t.qty)
            ((allocDest mtq k d.1 d.2 srcs).2.filter (fun t => t.toB = b)) ≤ d.2
        rw [hfe]
        exact allocDest_qtySum_le mtq k d.1 d.2 srcs (h d (List.mem_cons_self d ds))
      · rw [if_neg hb]
        have hfe : (allocDest mtq k d.1 d.2 srcs).2.filter (fun t => t.toB = b) = [] := by
          rw [List.filter_eq_nil_iff]
          intro t ht
          have := (allocDest_key mtq k d.1 d.2 srcs t ht).2
          simp [this, hb]
        show sumBy (fun t => t.qty)
            ((allocDest mtq k d.1 d.2 srcs).2.filter (fun t => t.toB = b)) ≤ 0
        rw [hfe]
        exact le_refl 0
    omega

theorem allocDests_total_out (mtq : Int) (k : String) :
    ∀ (srcs : List Src) (dests : List (String × Int)),
      qtySum (allocDests mtq k srcs dests).2 =
        totalSrc srcs - totalSrc (allocDests mtq k srcs dests).1
  | srcs, [] => by simp [allocDests, qtySum_nil]
  | srcs, d :: ds => by
    simp only [allocDests]
    try dsimp only
    rw [qtySum_append, allocDest_total, allocDests_total_out mtq k _ ds]
    omega

theorem allocDests_total_in (mtq : Int) (k : String) :
    ∀ (srcs : List Src) (dests : List (String × Int)),
      (∀ d ∈ dests, 0 ≤ d.2) →
      qtySum (allocDests mtq k srcs dests).2 ≤ totalDst dests
  | srcs, [], _ => by simp [allocDests, qtySum_nil, totalDst, sumBy]
  | srcs, d :: ds, h => by
    simp only [allocDests]
    try dsimp only
    rw [qtySum_append, totalDst_cons]
    have h1 := allocDest_qtySum_le mtq k d.1 d.2 srcs (h d (List.mem_cons_self d ds))
    have h2 := allocDests_total_in mtq k (allocDest mtq k d.1 d.2 srcs).1 ds
      (fun x hx => h x (List.mem_cons_of_mem d hx))
    omega

/- ## Filter algebra -/

theorem filter_and_eq {α : Type} (p q : α → Prop) [DecidablePred p] [DecidablePred q]
    (l : List α) :
    l.filter (fun a => p a ∧ q a) = (l.filter (fun a => p a)).filter (fun a => q a) := by
  rw [List.filter_filter]
  apply List.filter_congr
  intro a _
  by_cases hp : p a <;> by_cases hq : q a <;> simp [hp, hq]

theorem filter_map_comm {α β : Type} (f : α → β) (q : β → Bool) :
    ∀ l : List α, (l.map f).filter q = (l.filter (fun a => q (f a))).map f
  | [] => rfl
  | a :: l => by
    simp only [List.map_cons, List.filter_cons]
    by_cases h : q (f a) = true
    · simp [h, filter_map_comm f q l]
    · simp [h, filter_map_comm f q l]

theorem sumBy_filter_le {α : Type} (f : α → Int) (p : α → Bool) :
    ∀ l : List α, (∀ a ∈ l, 0 ≤ f a) → sumBy f (l.filter p) ≤ sumBy f l
  | [], _ => le_refl 0
  | a :: l, h => by
    have hrec := sumBy_filter_le f p l (fun x hx => h x (List.mem_cons_of_mem a hx))
    have ha := h a (List.mem_cons_self a l)
    simp only [List.filter_cons]
    by_cases hp : p a = true <;> simp [hp, sumBy_cons] <;> omega

theorem sumBy_filter_and_le {α : Type} (f : α → Int) (p q : α → Bool) :
    ∀ l : List α, (∀ a ∈ l, 0 ≤ f a) →
      sumBy f (l.filter (fun a => p a && q a)) ≤ sumBy f (l.filter p)
  | [], _ => le_refl 0
  | a :: l, h => by
    have hrec := sumBy_filter_and_le f p q l (fun x hx => h x (List.mem_cons_of_mem a hx))
    have ha := h a (List.mem_cons_self a l)
    simp only [List.filter_cons]
    by_cases hp : p a = true <;> by_cases hq : q a = true <;>
      simp [hp, hq, sumBy_cons] <;> omega

theorem sumBy_filter_filter_le {α : Type} (f : α → Int) (p q : α → Bool)
    (l : List α) (h : ∀ a ∈ l, 0 ≤ f a) :
    sumBy f ((l.filter p).filter q) ≤ sumBy f (l.filter q) := by
  rw [List.filter_filter]
  exact sumBy_filter_and_le f q p l h

/- ## Non-negativity of the aggregated quantities -/

theorem surplusOf_nonneg (p : Params) (sys : Int) : 0 ≤ surplusOf p sys :=
  le_max_right _ _

theorem needOf_nonneg (p : Params) (sys : Int) : 0 ≤ needOf p sys :=
  le_trans (le_max_right _ 0) (le_max_right (need_displayOf p sys) (need_safetyOf p sys))

theorem expanded_nonneg (p : Params) (recs : List InputRecord) :
    ∀ e ∈ recs.flatMap (expandRecord p), 0 ≤ e.surplus ∧ 0 ≤ e.need := by
  intro e he
  rcases List.mem_flatMap.mp he with ⟨r, _, hm⟩
  unfold expandRecord at hm
  rcases hsp : split_barcodes r.barcodes with _ | ⟨b, bs⟩ <;> rw [hsp] at hm
  · rcases List.mem_singleton.mp hm with rfl
    exact ⟨surplusOf_nonneg p _, needOf_nonneg p _⟩
  · rcases List.mem_map.mp hm with ⟨bc, _, rfl⟩
    exact ⟨surplusOf_nonneg p _, needOf_nonneg p _⟩

theorem aggRowFor_surplus (rows : List ExpandedRow) (q : String × String) :
    (aggRowFor rows q).surplus =
      sumBy (fun e => e.surplus) (rows.filter (fun e => pairOfE e = q)) := rfl

theorem aggRowFor_need (rows : List ExpandedRow) (q : String × String) :
    (aggRowFor rows q).need =
      sumBy (fun e => e.need) (rows.filter (fun e => pairOfE e = q)) := rfl

theorem aggregate_nonneg {rows0 : List ExpandedRow}
    (h : ∀ e ∈ rows0, 0 ≤ e.surplus ∧ 0 ≤ e.need) :
    ∀ r ∈ aggregate rows0, 0 ≤ r.surplus ∧ 0 ≤ r.need := by
  intro r hr
  rcases List.mem_map.mp hr with ⟨q, _, rfl⟩
  constructor
  · rw [aggRowFor_surplus]
    exact sumBy_nonneg _ _ (fun e he => (h e (List.mem_filter.mp he).1).1)
  · rw [aggRowFor_need]
    exact sumBy_nonneg _ _ (fun e he => (h e (List.mem_filter.mp he).1).2)

/- ## Source and destination list bookkeeping -/

theorem destsOf_pos (sub : List AggRow) : ∀ d ∈ destsOf sub, 1 ≤ d.2 := by
  intro d hd
  unfold destsOf at hd
  rcases List.mem_map.mp hd with ⟨r, hr, rfl⟩
  have h2 := (List.mem_filter.mp hr).2
  simpa using h2

theorem destsOf_nonneg (sub : List AggRow) : ∀ d ∈ destsOf sub, 0 ≤ d.2 :=
  fun d hd => le_trans (by omega) (destsOf_pos sub d hd)

theorem sourcesOf_branch_mem {mtq : Int} {sub : List AggRow} {b : String}
    (hb : b ∈ (sourcesOf mtq sub).map (fun s => s.branch)) :
    ∃ r ∈ sub, r.branch = b ∧ mtq ≤ r.surplus := by
  unfold sourcesOf at hb
  rw [List.map_map] at hb
  rcases List.mem_map.mp hb with ⟨r, hr, he⟩
  refine ⟨r, (List.mem_filter.mp hr).1, he, ?_⟩
  have h2 := (List.mem_filter.mp hr).2
  simpa using h2

theorem destsOf_mem {sub : List AggRow} {d : String × Int} (hd : d ∈ destsOf sub) :
    ∃ r ∈ sub, r.branch = d.1 ∧ r.need = d.2 ∧ 1 ≤ r.need := by
  unfold destsOf at hd
  rcases List.mem_map.mp hd with ⟨r, hr, rfl⟩
  refine ⟨r, (List.mem_filter.mp hr).1, rfl, rfl, ?_⟩
  have h2 := (List.mem_filter.mp hr).2
  simpa using h2

theorem srcSum_sourcesOf_le (mtq : Int) (sub : List AggRow) (b : String)
    (h : ∀ r ∈ sub, 0 ≤ r.surplus) :
    srcSum b (sourcesOf mtq sub) ≤
      sumBy (fun r => r.surplus) (sub.filter (fun r => r.branch = b)) := by
  unfold srcSum sourcesOf
  rw [filter_map_comm, sumBy_map]
  exact sumBy_filter_filter_le (fun r => r.surplus) _ _ sub h

theorem dstSum_destsOf_le (sub : List AggRow) (b : String)
    (h : ∀ r ∈ sub, 0 ≤ r.need) :
    dstSum b (destsOf sub) ≤
      sumBy (fun r => r.need) (sub.filter (fun r => r.branch = b)) := by
  unfold dstSum destsOf
  rw [filter_map_comm, sumBy_map]
  exact sumBy_filter_filter_le (fun r => r.need) _ _ sub h

theorem totalSrc_sourcesOf_le (mtq : Int) (sub : List AggRow)
    (h : ∀ r ∈ sub, 0 ≤ r.surplus) :
    totalSrc (sourcesOf mtq sub) ≤ sumBy (fun r => r.surplus) sub := by
  unfold totalSrc sourcesOf
  rw [sumBy_map]
  exact sumBy_filter_le (fun r => r.surplus) _ sub h

theorem totalDst_destsOf_le (sub : List AggRow)
    (h : ∀ r ∈ sub, 0 ≤ r.need) :
    totalDst (destsOf sub) ≤ sumBy (fun r => r.need) sub := by
  unfold totalDst destsOf
  rw [sumBy_map]
  exact sumBy_filter_le (fun r => r.need) _ sub h

/- ## Per-key decomposition of the matcher output -/

theorem flatMap_filter_key (g : String → List Transfer) (k : String)
    (hg : ∀ k2, ∀ t ∈ g k2, t.key = k2) :
    ∀ ks : List String, ks.Nodup →
      (ks.flatMap g).filter (fun t => t.key = k) = if k ∈ ks then g k else []
  | [], _ => by simp
  | k2 :: ks, hnd => by
    rw [List.flatMap_cons, List.filter_append]
    have hnd2 := (List.nodup_cons.mp hnd).2
    have hnotin := (List.nodup_cons.mp hnd).1
    by_cases hk : k2 = k
    · subst hk
      have h1 : (g k2).filter (fun t => t.key = k2) = g k2 :=
        List.filter_eq_self.mpr (fun t ht => by simp [hg k2 t ht])
      have h2 : (ks.flatMap g).filter (fun t => t.key = k2) = [] := by
        rw [flatMap_filter_key g k2 hg ks hnd2, if_neg hnotin]
      rw [h1, h2, if_pos (List.mem_cons_self k2 ks), List.append_nil]
    · have h1 : (g k2).filter (fun t => t.key = k) = [] := by
        rw [List.filter_eq_nil_iff]
        intro t ht
        simp [hg k2 t ht, hk]
      rw [h1, List.nil_append, flatMap_filter_key g k hg ks hnd2]
      by_cases hm : k ∈ ks
      · rw [if_pos hm, if_pos (List.mem_cons_of_mem k2 hm)]
      · rw [if_neg hm, if_neg (by
          intro hc
          rcases List.mem_cons.mp hc with he | hm2
          · exact hk he.symm
          · exact hm hm2)]

theorem matchTransfers_filter_key (mtq : Int) (agg : List AggRow) (k : String) :
    (matchTransfers mtq agg).filter (fun t => t.key = k) =
      if k ∈ uniqueFirst (agg.map (fun r => r.key)) then
        (allocDests mtq k (sourcesOf mtq (agg.filter (fun r => r.key = k)))
          (destsOf (agg.filter (fun r => r.key = k)))).2
      else [] := by
  unfold matchTransfers
  exact flatMap_filter_key _ k
    (fun k2 t ht => allocDests_key mtq k2 _ _ t ht)
    (uniqueFirst (agg.map (fun r => r.key))) (nodup_uniqueFirst _)

theorem outSum_eq (k b : String) (ts : List Transfer) :
    outSum k b ts = outB b (ts.filter (fun t => t.key = k)) := by
  unfold outSum outB
  rw [filter_and_eq (fun t => t.key = k) (fun t => t.fromB = b) ts]

theorem inSum_eq (k b : String) (ts : List Transfer) :
    inSum k b ts = inB b (ts.filter (fun t => t.key = k)) := by
  unfold inSum inB
  rw [filter_and_eq (fun t => t.key = k) (fun t => t.toB = b) ts]

theorem keySum_eq (k : String) (ts : List Transfer) :
    keySum k ts = qtySum (ts.filter (fun t => t.key = k)) := rfl

theorem surplusAt_eq_sub (k b : String) (agg : List AggRow) :
    surplusAt k b agg =
      sumBy (fun r => r.surplus)
        ((agg.filter (fun r => r.key = k)).filter (fun r => r.branch = b)) := by
  unfold surplusAt
  rw [filter_and_eq (fun r : AggRow => r.key = k) (fun r : AggRow => r.branch = b) agg]

theorem needAt_eq_sub (k b : String) (agg : List AggRow) :
    needAt k b agg =
      sumBy (fun r => r.need)
        ((agg.filter (fun r => r.key = k)).filter (fun r => r.branch = b)) := by
  unfold needAt
  rw [filter_and_eq (fun r : AggRow => r.key = k) (fun r : AggRow => r.branch = b) agg]

/- ## Conservation of the matcher at the aggregated level -/

theorem sourcesOf_nonneg (mtq : Int) {sub : List AggRow}
    (h : ∀ r ∈ sub, 0 ≤ r.surplus) :
    ∀ s ∈ sourcesOf mtq sub, 0 ≤ s.surplus := by
  intro s hs
  unfold sourcesOf at hs
  rcases List.mem_map.mp hs with ⟨r, hr, rfl⟩
  exact h r (List.mem_filter.mp hr).1

theorem matchTransfers_out_le (mtq : Int) (agg : List AggRow) (k b : String)
    (hnn : ∀ r ∈ agg, 0 ≤ r.surplus) :
    outSum k b (matchTransfers mtq agg) ≤ surplusAt k b agg := by
  rw [outSum_eq, matchTransfers_filter_key, surplusAt_eq_sub]
  have hsubnn : ∀ r ∈ agg.filter (fun r => r.key = k), 0 ≤ r.surplus :=
    fun r hr => hnn r (List.mem_filter.mp hr).1
  by_cases hk : k ∈ uniqueFirst (agg.map (fun r => r.key))
  · rw [if_pos hk]
    have hsrcs := sourcesOf_nonneg mtq hsubnn
    have h1 := allocDests_out mtq k b (sourcesOf mtq (agg.filter (fun r => r.key = k)))
      (destsOf (agg.filter (fun r => r.key = k)))
    have h2 : 0 ≤ srcSum b (allocDests mtq k
        (sourcesOf mtq (agg.filter (fun r => r.key = k)))
        (destsOf (agg.filter (fun r => r.key = k)))).1 := by
      unfold srcSum
      exact sumBy_nonneg _ _ (fun s hs =>
        allocDests_nonneg mtq k _ _ hsrcs s (List.mem_filter.mp hs).1)
    have h3 := srcSum_sourcesOf_le mtq (agg.filter (fun r => r.key = k)) b hsubnn
    omega
  · rw [if_neg hk, outB_nil]
    exact sumBy_nonneg _ _ (fun r hr => hsubnn r (List.mem_filter.mp hr).1)

theorem matchTransfers_in_le (mtq : Int) (agg : List AggRow) (k b : String)
    (hnn : ∀ r ∈ agg, 0 ≤ r.need) :
    inSum k b (matchTransfers mtq agg) ≤ needAt k b agg := by
  rw [inSum_eq, matchTransfers_filter_key, needAt_eq_sub]
  have hsubnn : ∀ r ∈ agg.filter (fun r => r.key = k), 0 ≤ r.need :=
    fun r hr => hnn r (List.mem_filter.mp hr).1
  by_cases hk : k ∈ uniqueFirst (agg.map (fun r => r.key))
  · rw [if_pos hk]
    have h1 := allocDests_in mtq k b (sourcesOf mtq (agg.filter (fun r => r.key = k)))
      (destsOf (agg.filter (fun r => r.key = k)))
      (destsOf_nonneg (agg.filter (fun r => r.key = k)))
    have h2 := dstSum_destsOf_le (agg.filter (fun r => r.key = k)) b hsubnn
    omega
  · rw [if_neg hk, inB_nil]
    exact sumBy_nonneg _ _ (fun r hr => hsubnn r (List.mem_filter.mp hr).1)

theorem matchTransfers_key_le_surplus (mtq : Int) (agg : List AggRow) (k : String)
    (hnn : ∀ r ∈ agg, 0 ≤ r.surplus) :
    keySum k (matchTransfers mtq agg) ≤ keySurplus k agg := by
  rw [keySum_eq, matchTransfers_filter_key]
  unfold keySurplus
  have hsubnn : ∀ r ∈ agg.filter (fun r => r.key = k), 0 ≤ r.surplus :=
    fun r hr => hnn r (List.mem_filter.mp hr).1
  by_cases hk : k ∈ uniqueFirst (agg.map (fun r => r.key))
  · rw [if_pos hk]
    have hsrcs := sourcesOf_nonneg mtq hsubnn
    have h1 := allocDests_total_out mtq k (sourcesOf mtq (agg.filter (fun r => r.key = k)))
      (destsOf (agg.filter (fun r => r.key = k)))
    have h2 : 0 ≤ totalSrc (allocDests mtq k
        (sourcesOf mtq (agg.filter (fun r => r.key = k)))
        (destsOf (agg.filter (fun r => r.key = k)))).1 := by
      unfold totalSrc
      exact sumBy_nonneg _ _ (fun s hs => allocDests_nonneg mtq k _ _ hsrcs s hs)
    have h3 := totalSrc_sourcesOf_le mtq (agg.filter (fun r => r.key = k)) hsubnn
    omega
  · rw [if_neg hk, qtySum_nil]
    exact sumBy_nonneg _ _ (fun r hr => hsubnn r hr)

theorem matchTransfers_key_le_need (mtq : Int) (agg : List AggRow) (k : String)
    (hnn : ∀ r ∈ agg, 0 ≤ r.need) :
    keySum k (matchTransfers mtq agg) ≤ keyNeed k agg := by
  rw [keySum_eq, matchTransfers_filter_key]
  unfold keyNeed
  have hsubnn : ∀ r ∈ agg.filter (fun r => r.key = k), 0 ≤ r.need :=
    fun r hr => hnn r (List.mem_filter.mp hr).1
  by_cases hk : k ∈ uniqueFirst (agg.map (fun r => r.key))
  · rw [if_pos hk]
    have h1 := allocDests_total_in mtq k (sourcesOf mtq (agg.filter (fun r => r.key = k)))
      (destsOf (agg.filter (fun r => r.key = k)))
      (destsOf_nonneg (agg.filter (fun r => r.key = k)))
    have h2 := totalDst_destsOf_le (agg.filter (fun r => r.key = k)) hsubnn
    omega
  · rw [if_neg hk, qtySum_nil]
    exact sumBy_nonneg _ _ (fun r hr => hsubnn r hr)

/- ## Transport of the aggregated sums to the final (annotated) rows -/

theorem sumBy_filter_map_pres {α : Type} (g : α → Int) (gq : α → Bool) (F : α → α)
    (hg : ∀ r, g (F r) = g r) (hq : ∀ r, gq (F r) = gq r) :
    ∀ rows : List α, sumBy g ((rows.map F).filter gq) = sumBy g (rows.filter gq)
  | [] => rfl
  | r :: rows => by
    simp only [List.map_cons, List.filter_cons, hq r]
    by_cases h : gq r = true
    · rw [if_pos h, if_pos h, sumBy_cons, sumBy_cons, hg r,
        sumBy_filter_map_pres g gq F hg hq rows]
    · rw [if_neg h, if_neg h, sumBy_filter_map_pres g gq F hg hq rows]

theorem pred_pipeline_kb (ts : List Transfer) (k b : String) (r : AggRow) :
    decide ((finalizeF (annotateF ts r)).key = k ∧ (finalizeF (annotateF ts r)).branch = b) =
      decide (r.key = k ∧ r.branch = b) :=
  decide_eq_decide.mpr (by
    rw [(finalizeF_quants (annotateF ts r)).1, (annotateF_quants ts r).1,
      (finalizeF_quants (annotateF ts r)).2.1, (annotateF_quants ts r).2.1])

theorem pred_pipeline_k (ts : List Transfer) (k : String) (r : AggRow) :
    decide ((finalizeF (annotateF ts r)).key = k) = decide (r.key = k) :=
  decide_eq_decide.mpr (by
    rw [(finalizeF_quants (annotateF ts r)).1, (annotateF_quants ts r).1])

theorem surplusAt_final (recs : List InputRecord) (p : Params) (k b : String) :
    surplusAt k b (processRecords recs p).1 =
      surplusAt k b (aggregate (recs.flatMap (expandRecord p))) := by
  rw [processRecords_fst]
  unfold surplusAt
  exact sumBy_filter_map_pres _ _ _
    (fun r => ((finalizeF_quants (annotateF _ r)).2.2.2.2.2.2).trans
      ((annotateF_quants _ r).2.2.2.2.2.2))
    (fun r => pred_pipeline_kb _ k b r) _

theorem needAt_final (recs : List InputRecord) (p : Params) (k b : String) :
    needAt k b (processRecords recs p).1 =
      needAt k b (aggregate (recs.flatMap (expandRecord p))) := by
  rw [processRecords_fst]
  unfold needAt
  exact sumBy_filter_map_pres _ _ _
    (fun r => ((finalizeF_quants (annotateF _ r)).2.2.2.2.2.1).trans
      ((annotateF_quants _ r).2.2.2.2.2.1))
    (fun r => pred_pipeline_kb _ k b r) _

theorem keySurplus_final (recs : List InputRecord) (p : Params) (k : String) :
    keySurplus k (processRecords recs p).1 =
      keySurplus k (aggregate (recs.flatMap (expandRecord p))) := by
  rw [processRecords_fst]
  unfold keySurplus
  exact sumBy_filter_map_pres _ _ _
    (fun r => ((finalizeF_quants (annotateF _ r)).2.2.2.2.2.2).trans
      ((annotateF_quants _ r).2.2.2.2.2.2))
    (fun r => pred_pipeline_k _ k r) _

theorem keyNeed_final (recs : List InputRecord) (p : Params) (k : String) :
    keyNeed k (processRecords recs p).1 =
      keyNeed k (aggregate (recs.flatMap (expandRecord p))) := by
  rw [processRecords_fst]
  unfold keyNeed
  exact sumBy_filter_map_pres _ _ _
    (fun r => ((finalizeF_quants (annotateF _ r)).2.2.2.2.2.1).trans
      ((annotateF_quants _ r).2.2.2.2.2.1))
    (fun r => pred_pipeline_k _ k r) _

/- ## C3 -/

/-- Claim C3: for every batch, parameters, key and branch, the emitted
transfers conserve stock — total quantity leaving a branch for a key never
exceeds that branch's aggregated Surplus, total quantity entering a branch
never exceeds its aggregated Need, and the key's total transferred quantity
is at most the minimum of the key's total Surplus and total Need. -/
theorem C3_conservation (recs : List InputRecord) (p : Params) (k b : String) :
    outSum k b (processRecords recs p).2 ≤ surplusAt k b (processRecords recs p).1 ∧
    inSum k b (processRecords recs p).2 ≤ needAt k b (processRecords recs p).1 ∧
    keySum k (processRecords recs p).2 ≤
      min (keySurplus k (processRecords recs p).1) (keyNeed k (processRecords recs p).1) := by
  have hnn := aggregate_nonneg (expanded_nonneg p recs)
  have hnnS : ∀ r ∈ aggregate (recs.flatMap (expandRecord p)), 0 ≤ r.surplus :=
    fun r h => (hnn r h).1
  have hnnN : ∀ r ∈ aggregate (recs.flatMap (expandRecord p)), 0 ≤ r.need :=
    fun r h => (hnn r h).2
  refine ⟨?_, ?_, ?_⟩
  · rw [processRecords_snd, surplusAt_final]
    exact matchTransfers_out_le _ _ k b hnnS
  · rw [processRecords_snd, needAt_final]
    exact matchTransfers_in_le _ _ k b hnnN
  · rw [processRecords_snd, keySurplus_final, keyNeed_final]
    exact le_min (matchTransfers_key_le_surplus _ _ k hnnS)
      (matchTransfers_key_le_need _ _ k hnnN)

/- ## Shape of the emitted transfers -/

theorem le_sumBy_of_mem {α : Type} (f : α → Int) :
    ∀ (l : List α) (a : α), a ∈ l → (∀ x ∈ l, 0 ≤ f x) → f a ≤ sumBy f l
  | [], a, ha, _ => absurd ha (List.not_mem_nil a)
  | x :: l, a, ha, h => by
    rw [sumBy_cons]
    rcases List.mem_cons.mp ha with rfl | hm
    · have h2 := sumBy_nonneg f l (fun y hy => h y (List.mem_cons_of_mem _ hy))
      omega
    · have h1 := le_sumBy_of_mem f l a hm (fun y hy => h y (List.mem_cons_of_mem _ hy))
      have h2 := h x (List.mem_cons_self x l)
      omega

theorem allocDest_from_mem (mtq : Int) (k dB : String) :
    ∀ (need : Int) (srcs : List Src), ∀ t ∈ (allocDest mtq k dB need srcs).2,
      t.fromB ∈ srcs.map (fun s => s.branch)
  | need, [] => by simp [allocDest]
  | need, s :: rest => by
    have ih := fun n => allocDest_from_mem mtq k dB n rest
    simp only [allocDest]
    split_ifs with h1 h2 h3 h4
    · intro t ht
      exact List.mem_cons_of_mem _ (ih need t ht)
    · intro t ht
      rcases List.mem_singleton.mp ht with rfl
      simp
    · intro t ht
      rcases List.mem_cons.mp ht with rfl | hmem
      · simp
      · exact List.mem_cons_of_mem _ (ih _ t hmem)
    · simp
    · intro t ht
      exact List.mem_cons_of_mem _ (ih need t ht)

theorem allocDests_fromTo (mtq : Int) (k : String) :
    ∀ (srcs : List Src) (dests : List (String × Int)),
      ∀ t ∈ (allocDests mtq k srcs dests).2,
        t.fromB ∈ srcs.map (fun s => s.branch) ∧ ∃ d ∈ dests, t.toB = d.1
  | srcs, [] => by simp [allocDests]
  | srcs, d :: ds => by
    simp only [allocDests]
    intro t ht
    try dsimp only at ht
    rcases List.mem_append.mp ht with h | h
    · exact ⟨allocDest_from_mem mtq k d.1 d.2 srcs t h,
        ⟨d, List.mem_cons_self d ds, (allocDest_key mtq k d.1 d.2 srcs t h).2⟩⟩
    · have h1 := allocDests_fromTo mtq k _ ds t h
      refine ⟨?_, ?_⟩
      · rw [← allocDest_branches mtq k d.1 d.2 srcs]
        exact h1.1
      · rcases h1.2 with ⟨d2, hd2, he⟩
        exact ⟨d2, List.mem_cons_of_mem d hd2, he⟩

theorem matchTransfers_fromTo (mtq : Int) (agg : List AggRow) :
    ∀ t ∈ matchTransfers mtq agg,
      (∃ r ∈ agg, r.key = t.key ∧ r.branch = t.fromB ∧ mtq ≤ r.surplus) ∧
      (∃ r ∈ agg, r.key = t.key ∧ r.branch = t.toB ∧ 1 ≤ r.need) := by
  intro t ht
  unfold matchTransfers at ht
  rcases List.mem_flatMap.mp ht with ⟨k, _, htk⟩
  have hkey := allocDests_key mtq k _ _ t htk
  have hft := allocDests_fromTo mtq k _ _ t htk
  constructor
  · rcases sourcesOf_branch_mem hft.1 with ⟨r, hr, hb, hs⟩
    have hrk := (List.mem_filter.mp hr).2
    refine ⟨r, (List.mem_filter.mp hr).1, ?_, hb, hs⟩
    rw [hkey]
    simpa using hrk
  · rcases hft.2 with ⟨d, hd, he⟩
    rcases destsOf_mem hd with ⟨r, hr, hb, _, hn⟩
    have hrk := (List.mem_filter.mp hr).2
    refine ⟨r, (List.mem_filter.mp hr).1, ?_, by rw [hb, he], hn⟩
    rw [hkey]
    simpa using hrk

theorem matchTransfers_mem (mtq : Int) (agg : List AggRow) (hm : 0 ≤ mtq) :
    ∀ t ∈ matchTransfers mtq agg,
      mtq ≤ t.qty ∧
      (∃ r ∈ agg, r.key = t.key ∧ r.branch = t.toB ∧ t.qty ≤ r.need) := by
  intro t ht
  unfold matchTransfers at ht
  rcases List.mem_flatMap.mp ht with ⟨k, _, htk⟩
  have hkey := allocDests_key mtq k _ _ t htk
  have hsh := allocDests_mem mtq k hm _ _ t htk
  refine ⟨hsh.1, ?_⟩
  rcases hsh.2.2 with ⟨d, hd, he, hq⟩
  rcases destsOf_mem hd with ⟨r, hr, hb, hn, _⟩
  have hrk := (List.mem_filter.mp hr).2
  refine ⟨r, (List.mem_filter.mp hr).1, ?_, by rw [hb, he], by rw [hn]; exact hq⟩
  rw [hkey]
  simpa using hrk

/- ## Uniqueness of the (key, branch) pair among aggregated rows -/

theorem aggregate_pairs_eq (rows0 : List ExpandedRow) :
    (aggregate rows0).map aggPair = aggPairs rows0 := by
  unfold aggregate
  rw [List.map_map]
  have h : ∀ q ∈ aggPairs rows0, (aggPair ∘ aggRowFor rows0) q = id q := fun q _ => rfl
  rw [List.map_congr_left h, List.map_id]

theorem aggregate_unique {rows0 : List ExpandedRow} {r1 r2 : AggRow}
    (h1 : r1 ∈ aggregate rows0) (h2 : r2 ∈ aggregate rows0)
    (hk : r1.key = r2.key) (hb : r1.branch = r2.branch) : r1 = r2 := by
  have hnd : ((aggregate rows0).map aggPair).Nodup := by
    rw [aggregate_pairs_eq]
    exact nodup_aggPairs rows0
  apply List.inj_on_of_nodup_map hnd h1 h2
  unfold aggPair
  rw [hk, hb]

theorem final_of_agg (recs : List InputRecord) (p : Params) {r0 : AggRow}
    (h : r0 ∈ aggregate (recs.flatMap (expandRecord p))) :
    ∃ r ∈ (processRecords recs p).1,
      r.surplus = r0.surplus ∧ r.need = r0.need := by
  rw [processRecords_fst]
  refine ⟨_, List.mem_map_of_mem _ h,
    ((finalizeF_quants _).2.2.2.2.2.2).trans ((annotateF_quants _ r0).2.2.2.2.2.2),
    ((finalizeF_quants _).2.2.2.2.2.1).trans ((annotateF_quants _ r0).2.2.2.2.2.1)⟩

/- ## C4 -/

/-- Claim C4: with `minTransferQty ≥ 1` every emitted transfer carries at
least `minTransferQty` units, its source branch's aggregated Surplus for the
key is at least `minTransferQty`, and its destination branch's aggregated
Need for the key is at least `minTransferQty` — so no branch below the
threshold appears in any instruction. -/
theorem C4_min_threshold (recs : List InputRecord) (p : Params)
    (h : 1 ≤ p.minTransferQty) :
    ∀ t ∈ (processRecords recs p).2,
      p.minTransferQty ≤ t.qty ∧
      p.minTransferQty ≤ surplusAt t.key t.fromB (processRecords recs p).1 ∧
      p.minTransferQty ≤ needAt t.key t.toB (processRecords recs p).1 := by
  intro t ht
  rw [processRecords_snd] at ht
  have hnn := aggregate_nonneg (expanded_nonneg p recs)
  have hm : (0 : Int) ≤ p.minTransferQty := by omega
  have hq := matchTransfers_mem p.minTransferQty _ hm t ht
  have hft := matchTransfers_fromTo p.minTransferQty _ t ht
  refine ⟨hq.1, ?_, ?_⟩
  · rw [surplusAt_final]
    rcases hft.1 with ⟨r, hr, hkey, hbr, hs⟩
    have hrin : r ∈ (aggregate (recs.flatMap (expandRecord p))).filter
        (fun r2 => r2.key = t.key ∧ r2.branch = t.fromB) :=
      List.mem_filter.mpr ⟨hr, by simp [hkey, hbr]⟩
    refine le_trans hs (le_sumBy_of_mem _ _ r hrin ?_)
    intro x hx
    exact (hnn x (List.mem_filter.mp hx).1).1
  · rw [needAt_final]
    rcases hq.2 with ⟨r, hr, hkey, hbr, hneed⟩
    have hrin : r ∈ (aggregate (recs.flatMap (expandRecord p))).filter
        (fun r2 => r2.key = t.key ∧ r2.branch = t.toB) :=
      List.mem_filter.mpr ⟨hr, by simp [hkey, hbr]⟩
    have hmn : p.minTransferQty ≤ r.need := le_trans hq.1 hneed
    refine le_trans hmn (le_sumBy_of_mem _ _ r hrin ?_)
    intro x hx
    exact (hnn x (List.mem_filter.mp hx).1).2

/-- Witness for C4 at the end-to-end scenario: the single transfer moves 3
units between branches whose aggregated Surplus and Need are at least 1. -/
theorem C4_witness :
    ((1 : Int) ≤ demoParams.minTransferQty) ∧
    ((⟨"123", "A", "B", 3⟩ : Transfer) ∈ (processRecords demoRecs demoParams).2) ∧
    (demoParams.minTransferQty ≤ (⟨"123", "A", "B", 3⟩ : Transfer).qty ∧
     demoParams.minTransferQty ≤
       surplusAt "123" "A" (processRecords demoRecs demoParams).1 ∧
     demoParams.minTransferQty ≤
       needAt "123" "B" (processRecords demoRecs demoParams).1) :=
  ⟨by decide, by decide,
    C4_min_threshold demoRecs demoParams (by decide) ⟨"123", "A", "B", 3⟩ (by decide)⟩

/- ## C5 -/

/-- Claim C5 counterexample: when branch `X` reports barcode `"1"` twice (10
and 0 on hand), its single aggregated row has Surplus 7 and Need 3, the
matcher lists it both as source and destination, and the engine emits a
self-transfer `X → X` of 3 units. -/
theorem C5_counterexample :
    (processRecords c5Recs demoParams).2 = [⟨"1", "X", "X", 3⟩] ∧
    (⟨"1", "X", "X", 3⟩ : Transfer).fromB = (⟨"1", "X", "X", 3⟩ : Transfer).toB :=
  ⟨by decide, rfl⟩

/-- Claim C5, amended: no transfer is a self-transfer PROVIDED no aggregated
row carries both an eligible Surplus (`≥ minTransferQty`) and a positive Need
— the disjointness the spec assumes per branch, which aggregation can break. -/
theorem C5_no_self_transfer (recs : List InputRecord) (p : Params)
    (h : ∀ r ∈ (processRecords recs p).1, ¬(p.minTransferQty ≤ r.surplus ∧ 1 ≤ r.need)) :
    ∀ t ∈ (processRecords recs p).2, t.fromB ≠ t.toB := by
  intro t ht heq
  rw [processRecords_snd] at ht
  rcases matchTransfers_fromTo p.minTransferQty _ t ht with
    ⟨⟨r1, hr1, hk1, hb1, hs1⟩, ⟨r2, hr2, hk2, hb2, hn2⟩⟩
  have hre : r1 = r2 :=
    aggregate_unique hr1 hr2 (hk1.trans hk2.symm) (by rw [hb1, hb2, heq])
  rcases final_of_agg recs p hr1 with ⟨r, hr, hsur, hneed⟩
  exact h r hr ⟨by rw [hsur]; exact hs1, by rw [hneed, hre]; exact hn2⟩

/-- Witness for the amended C5 at the end-to-end scenario: its two rows never
hold Surplus and Need together, and its transfer goes from `A` to `B`. -/
theorem C5_witness :
    (∀ r ∈ (processRecords demoRecs demoParams).1,
      ¬(demoParams.minTransferQty ≤ r.surplus ∧ 1 ≤ r.need)) ∧
    ("A" : String) ≠ "B" :=
  ⟨by decide,
    C5_no_self_transfer demoRecs demoParams (by decide) ⟨"123", "A", "B", 3⟩ (by decide)⟩

/- ## C6 -/

/-- The (key, branch) pairs of the output rows are exactly `aggPairs` of the
expanded rows: annotation and finalization touch neither key nor branch. -/
theorem final_pairs_eq (recs : List InputRecord) (p : Params) :
    (processRecords recs p).1.map aggPair =
      aggPairs (recs.flatMap (expandRecord p)) := by
  rw [processRecords_fst, List.map_map]
  have h : ∀ r ∈ aggregate (recs.flatMap (expandRecord p)),
      (aggPair ∘ fun r2 => finalizeF (annotateF
        (matchTransfers p.minTransferQty (aggregate (recs.flatMap (expandRecord p)))) r2)) r =
        aggPair r := by
    intro r _
    show aggPair (finalizeF (annotateF _ r)) = aggPair r
    unfold aggPair
    rw [(finalizeF_quants _).1, (annotateF_quants _ r).1,
      (finalizeF_quants _).2.1, (annotateF_quants _ r).2.1]
  rw [List.map_congr_left h, aggregate_pairs_eq]

/-- Claim C6 counterexample: with keys first seen in the order `"2"`, `"1"`,
the output rows appear in sorted order `("1","A"), ("2","A")`, not in the
first-seen encounter order `("2","A"), ("1","A")` the claim asserts. -/
theorem C6_counterexample :
    (processRecords c6Recs demoParams).1.map aggPair = [("1", "A"), ("2", "A")] ∧
    uniqueFirst ((c6Recs.flatMap (expandRecord demoParams)).map pairOfE) =
      [("2", "A"), ("1", "A")] ∧
    ([("1", "A"), ("2", "A")] : List (String × String)) ≠ [("2", "A"), ("1", "A")] :=
  ⟨by decide, by decide, by decide⟩

/-- Claim C6, amended: the output table has one row per distinct
(NormalizedKey, Branch) pair of the expanded rows, ordered by ASCENDING
lexicographic (key, branch) comparison (the pandas `groupby` sort order), not
by first-seen encounter order. -/
theorem C6_sorted_pairs (recs : List InputRecord) (p : Params) :
    ((processRecords recs p).1.map aggPair).Nodup ∧
    List.Sorted pairLe ((processRecords recs p).1.map aggPair) ∧
    (∀ q : String × String,
      q ∈ (processRecords recs p).1.map aggPair ↔
        q ∈ (recs.flatMap (expandRecord p)).map pairOfE) := by
  rw [final_pairs_eq]
  refine ⟨nodup_aggPairs _, ?_, ?_⟩
  · unfold aggPairs
    exact List.sorted_insertionSort pairLe _
  · intro q
    unfold aggPairs
    rw [List.mem_insertionSort, List.mem_dedup]

/- ## C8 -/

/-- The per-row partner accumulation of one transfer: the source-side partner
(the destination branch) is appended first, then the destination-side partner
(the source branch), each through the annotator's comma rule. -/
theorem stepA_partner (t : Transfer) (r : AggRow) :
    (stepA t r).suggestedPartner =
      List.foldl (fun acc q => if acc ≠ "" then acc ++ q ++ "," else q)
        r.suggestedPartner
        ((if t.key = r.key ∧ t.fromB = r.branch then [t.toB] else []) ++
         (if t.key = r.key ∧ t.toB = r.branch then [t.fromB] else [])) := by
  unfold stepA
  have hk : (srcUpdate t r).key = r.key := by simp [srcUpdate]
  have hb : (srcUpdate t r).branch = r.branch := by simp [srcUpdate]
  by_cases h1 : r.key = t.key ∧ r.branch = t.fromB
  · rw [if_pos h1, if_pos (show t.key = r.key ∧ t.fromB = r.branch from
      ⟨h1.1.symm, h1.2.symm⟩)]
    by_cases h2 : (srcUpdate t r).key = t.key ∧ (srcUpdate t r).branch = t.toB
    · rw [if_pos h2]
      rw [if_pos (show t.key = r.key ∧ t.toB = r.branch from
        ⟨(hk ▸ h2.1).symm, (hb ▸ h2.2).symm⟩)]
      simp [srcUpdate, dstUpdate]
    · rw [if_neg h2]
      rw [if_neg (show ¬(t.key = r.key ∧ t.toB = r.branch) from fun hc =>
        h2 ⟨hk.trans hc.1.symm, hb.trans hc.2.symm⟩)]
      simp [srcUpdate]
  · rw [if_neg h1, if_neg (show ¬(t.key = r.key ∧ t.fromB = r.branch) from fun hc =>
      h1 ⟨hc.1.symm, hc.2.symm⟩)]
    by_cases h2 : r.key = t.key ∧ r.branch = t.toB
    · rw [if_pos h2, if_pos (show t.key = r.key ∧ t.toB = r.branch from
        ⟨h2.1.symm, h2.2.symm⟩)]
      simp [dstUpdate]
    · rw [if_neg h2, if_neg (show ¬(t.key = r.key ∧ t.toB = r.branch) from fun hc =>
        h2 ⟨hc.1.symm, hc.2.symm⟩)]
      rfl

theorem annotateF_partner : ∀ (ts : List Transfer) (r : AggRow),
    (annotateF ts r).suggestedPartner =
      List.foldl (fun acc q => if acc ≠ "" then acc ++ q ++ "," else q)
        r.suggestedPartner (partnersOf r.key r.branch ts)
  | [], r => rfl
  | t :: ts, r => by
    have h1 := annotateF_partner ts (stepA t r)
    have hk : (stepA t r).key = r.key := (stepA_quants t r).1
    have hb : (stepA t r).branch = r.branch := (stepA_quants t r).2.1
    rw [show annotateF (t :: ts) r = annotateF ts (stepA t r) from rfl, h1, hk, hb,
      stepA_partner t r]
    unfold partnersOf
    rw [List.flatMap_cons, List.foldl_append, List.foldl_append, List.foldl_append]

theorem aggregate_partner_empty (rows0 : List ExpandedRow) :
    ∀ r ∈ aggregate rows0, r.suggestedPartner = "" := by
  intro r hr
  rcases List.mem_map.mp hr with ⟨q, _, rfl⟩
  rfl

/-- Claim C8 counterexample: branch `A` sources two transfers (to `B` then
`C`); the code renders its Suggested Partner as `"BC,"` — the first partner
bare, the next with a trailing comma — while the comma-joined list the claim
describes is `"B,C"`. -/
theorem C8_counterexample :
    (processRecords c8Recs demoParams).1.map (fun r => r.suggestedPartner) =
      ["BC,", "A", "A"] ∧
    commaJoin (partnersOf "1" "A" (processRecords c8Recs demoParams).2) = "B,C" ∧
    ("BC," : String) ≠ "B,C" :=
  ⟨by decide, by decide, by decide⟩

/-- Claim C8, amended: each output row's Suggested Partner equals the fold of
its instruction-order partner list under the annotator's accumulation rule —
first partner appended bare, every later partner appended with a trailing
comma (NOT the comma-separated join of the partner list). -/
theorem C8_partner_accumulation (recs : List InputRecord) (p : Params) :
    ∀ r ∈ (processRecords recs p).1,
      r.suggestedPartner =
        renderPartners (partnersOf r.key r.branch (processRecords recs p).2) := by
  intro r hr
  rw [processRecords_fst] at hr
  rcases List.mem_map.mp hr with ⟨r0, hr0, rfl⟩
  have hfin : ∀ r2 : AggRow, (finalizeF r2).suggestedPartner = r2.suggestedPartner :=
    fun r2 => by simp [finalizeF]
  rw [processRecords_snd, hfin]
  rw [(finalizeF_quants (annotateF (matchTransfers p.minTransferQty
      (aggregate (recs.flatMap (expandRecord p)))) r0)).1]
  rw [(finalizeF_quants (annotateF (matchTransfers p.minTransferQty
      (aggregate (recs.flatMap (expandRecord p)))) r0)).2.1]
  rw [(annotateF_quants (matchTransfers p.minTransferQty
      (aggregate (recs.flatMap (expandRecord p)))) r0).1]
  rw [(annotateF_quants (matchTransfers p.minTransferQty
      (aggregate (recs.flatMap (expandRecord p)))) r0).2.1]
  rw [annotateF_partner, aggregate_partner_empty _ r0 hr0]
  rfl

/-- Witness for the amended C8: branch `A`'s row of the end-to-end scenario
carries partner string `"B"`, the fold of its single-element partner list. -/
theorem C8_witness :
    ((⟨"123", "A", "SKU1", "", "", "123", 10, 1, 9, 0, 7, "Transfer to B x3; ", 3, "B",
        "Transfer to B x3", "Prepare Transfer — Move 3 units to B"⟩ : AggRow) ∈
      (processRecords demoRecs demoParams).1) ∧
    (⟨"123", "A", "SKU1", "", "", "123", 10, 1, 9, 0, 7, "Transfer to B x3; ", 3, "B",
        "Transfer to B x3", "Prepare Transfer — Move 3 units to B"⟩ : AggRow).suggestedPartner =
      renderPartners (partnersOf "123" "A" (processRecords demoRecs demoParams).2) :=
  ⟨by decide,
    C8_partner_accumulation demoRecs demoParams
      ⟨"123", "A", "SKU1", "", "", "123", 10, 1, 9, 0, 7, "Transfer to B x3; ", 3, "B",
        "Transfer to B x3", "Prepare Transfer — Move 3 units to B"⟩ (by decide)⟩
